import Mathlib

/-!
# Hash-table micro-benchmark core (`hashtable.c`)

A shallow embedding of the two insertion engines of `hashtable.c` (open
addressing with linear probing, closed addressing with separate chaining) and
of the batch drivers that report the statistics.

Conventions of the embedding:

* a C `int` is a Lean `Int`; the counters (`count`, `collisions`, `probes`,
  `total_inserts`) are read as mathematical integers (signed overflow is
  undefined in C and is not modelled);
* a C array is a `List`; a read outside the array is undefined behaviour in C
  and makes the embedded function return `none`;
* a bucket (a singly linked list of `Node`s) is the `List Int` of its keys,
  head first;
* the `while` loop of `linear_insert` is a function recursive on a fuel
  argument; `linear_insert` supplies `size` units, which is enough for every
  well-formed table (`linear_insert_total`).
-/

set_option maxRecDepth 100000

namespace HashTable

/-! ## Data model -/

/-- The macro `TABLE_SIZE`. -/
def TABLE_SIZE : Int := 1009

/-- The enumerator `LINEAR_PROBING` of `CollisionMethod`. -/
def LINEAR_PROBING : Int := 1

/-- The enumerator `SEPARATE_CHAINING` of `CollisionMethod`. -/
def SEPARATE_CHAINING : Int := 2

/-- The struct `LinearProbingHashTable`; `table` is the slot array, `-1` marks
an empty slot. -/
structure LinearProbingHashTable where
  table : List Int
  size : Int
  count : Int
  collisions : Int
  probes : Int
deriving DecidableEq

/-- The struct `SeparateChainingHashTable`; `chains` is the array of buckets,
each bucket the list of the keys of its nodes, head first. -/
structure SeparateChainingHashTable where
  chains : List (List Int)
  size : Int
  count : Int
  collisions : Int
deriving DecidableEq

/-- The struct `Stats`. -/
structure Stats where
  total_inserts : Int
  total_collisions : Int
  total_probes : Int
deriving DecidableEq

/-- The read `a[idx]` of a C array with an `int` index: `none` outside the
array. -/
def readAt {α : Type} (a : List α) (idx : Int) : Option α :=
  if 0 ≤ idx then a[idx.toNat]? else none

/-! ## Operations -/

/-- The function `hash1`: `key % TABLE_SIZE` with the truncating remainder of C. -/
def hash1 (key : Int) : Int :=
  Int.tmod key TABLE_SIZE

/-- The function `create_linear_table`: `size` slots, all `-1`, counters zero. -/
def create_linear_table : LinearProbingHashTable :=
  { table := List.replicate TABLE_SIZE.toNat (-1)
    size := TABLE_SIZE
    count := 0
    collisions := 0
    probes := 0 }

/-- The `while` loop of `linear_insert`, entered with the current `idx` and
`probes`; the result is the return value and the table after the call.
`none`: a read outside the array, or no fuel left. -/
def linear_insert_loop :
    Nat → LinearProbingHashTable → Int → Int → Int → Option (Int × LinearProbingHashTable)
  | 0, _, _, _, _ => none
  | fuel + 1, ht, key, idx, probes =>
    match readAt ht.table idx with
    | none => none
    | some v =>
      if v ≠ -1 then
        if v = key then
          some (0, { ht with probes := ht.probes + probes })
        else
          let idx1 := Int.tmod (idx + 1) ht.size
          let probes1 := probes + 1
          let ht1 := { ht with collisions := ht.collisions + 1 }
          if probes1 > ht.size then some (-1, ht1)
          else linear_insert_loop fuel ht1 key idx1 probes1
      else
        some (1, { ht with
                    table := ht.table.set idx.toNat key
                    count := ht.count + 1
                    probes := ht.probes + probes })

/-- The function `linear_insert`: return value (`1` inserted, `0` already
there, `-1` full table) and the table after the call. -/
def linear_insert (ht : LinearProbingHashTable) (key : Int) :
    Option (Int × LinearProbingHashTable) :=
  linear_insert_loop ht.size.toNat ht key (hash1 key) 1

/-- The function `create_chaining_table`: `size` empty buckets, counters zero. -/
def create_chaining_table : SeparateChainingHashTable :=
  { chains := List.replicate TABLE_SIZE.toNat []
    size := TABLE_SIZE
    count := 0
    collisions := 0 }

/-- The scan `while(current)` of `chaining_insert` over one bucket: `true` when a
node holds `key`. -/
def chain_scan : List Int → Int → Bool
  | [], _ => false
  | k :: rest, key => if k = key then true else chain_scan rest key

/-- The function `chaining_insert`: return value (`1` inserted, `0` already
there) and the table after the call. -/
def chaining_insert (ht : SeparateChainingHashTable) (key : Int) :
    Option (Int × SeparateChainingHashTable) :=
  let idx := hash1 key
  match readAt ht.chains idx with
  | none => none
  | some head =>
    if chain_scan head key then some (0, ht)
    else
      let ht1 := if head ≠ [] then { ht with collisions := ht.collisions + 1 } else ht
      some (1, { ht1 with
                  chains := ht1.chains.set idx.toNat (key :: head)
                  count := ht1.count + 1 })

/-- The `for` loop of `run_linear_probing`: `steps` iterations are left, `i` is
the loop counter. -/
def linear_batch (keys : List Int) :
    Nat → Nat → LinearProbingHashTable → Stats → Option (LinearProbingHashTable × Stats)
  | 0, _, ht, stats => some (ht, stats)
  | steps + 1, i, ht, stats =>
    match keys[i]? with
    | none => none
    | some key =>
      match linear_insert ht key with
      | none => none
      | some (res, ht1) =>
        linear_batch keys steps (i + 1) ht1
          (if res = 1 then { stats with total_inserts := stats.total_inserts + 1 } else stats)

/-- The table and the statistics of `run_linear_probing` when its `for` loop
has ended, before the counters are copied and the table is freed. -/
def linear_final (keys : List Int) (n : Int) : Option (LinearProbingHashTable × Stats) :=
  linear_batch keys n.toNat 0 create_linear_table ⟨0, 0, 0⟩

/-- The function `run_linear_probing`. -/
def run_linear_probing (keys : List Int) (n : Int) : Option Stats :=
  match linear_final keys n with
  | none => none
  | some (ht, stats) =>
    some { stats with total_collisions := ht.collisions, total_probes := ht.probes }

/-- The `for` loop of `run_separate_chaining`: `steps` iterations are left, `i`
is the loop counter. -/
def chaining_batch (keys : List Int) :
    Nat → Nat → SeparateChainingHashTable → Stats → Option (SeparateChainingHashTable × Stats)
  | 0, _, ht, stats => some (ht, stats)
  | steps + 1, i, ht, stats =>
    match keys[i]? with
    | none => none
    | some key =>
      match chaining_insert ht key with
      | none => none
      | some (res, ht1) =>
        chaining_batch keys steps (i + 1) ht1
          (if res = 1 then { stats with total_inserts := stats.total_inserts + 1 } else stats)

/-- The table and the statistics of `run_separate_chaining` when its `for` loop
has ended. -/
def chaining_final (keys : List Int) (n : Int) :
    Option (SeparateChainingHashTable × Stats) :=
  chaining_batch keys n.toNat 0 create_chaining_table ⟨0, 0, 0⟩

/-- The function `run_separate_chaining`. -/
def run_separate_chaining (keys : List Int) (n : Int) : Option Stats :=
  match chaining_final keys n with
  | none => none
  | some (ht, stats) =>
    some { stats with total_collisions := ht.collisions, total_probes := 0 }

/-- The function `run_hash_test`. -/
def run_hash_test (keys : List Int) (n : Int) (collision_method : Int) : Option Stats :=
  if collision_method = LINEAR_PROBING then run_linear_probing keys n
  else if collision_method = SEPARATE_CHAINING then run_separate_chaining keys n
  else some ⟨0, 0, 0⟩

/-! ## Proof devices: batches as folds over the key list -/

/-- The update of `stats` in the body of both `for` loops
(`if(res == 1) stats.total_inserts++`). -/
def bump (res : Int) (stats : Stats) : Stats :=
  if res = 1 then { stats with total_inserts := stats.total_inserts + 1 } else stats

/-- The linear-probing batch as a recursion over the list of keys fed to
`linear_insert` (see `linear_batch_eq_feed`). -/
def linear_feed : List Int → LinearProbingHashTable → Stats →
    Option (LinearProbingHashTable × Stats)
  | [], ht, stats => some (ht, stats)
  | key :: rest, ht, stats =>
    match linear_insert ht key with
    | none => none
    | some (res, ht1) => linear_feed rest ht1 (bump res stats)

/-- The chaining batch as a recursion over the list of keys fed to
`chaining_insert` (see `chaining_batch_eq_feed`). -/
def chaining_feed : List Int → SeparateChainingHashTable → Stats →
    Option (SeparateChainingHashTable × Stats)
  | [], ht, stats => some (ht, stats)
  | key :: rest, ht, stats =>
    match chaining_insert ht key with
    | none => none
    | some (res, ht1) => chaining_feed rest ht1 (bump res stats)

/-- The content of slot `i` of a slot array (`-1` outside the array). -/
def slotAt (t : List Int) (i : Nat) : Int := t.getD i (-1)

/-- The slot examined at step `t` (from `0`) of the probe sequence of a
non-negative `key`. -/
def probeIdx (key : Int) (t : Nat) : Nat := (key.toNat % 1009 + t) % 1009

/-- Well-formed probing table: `size` is `TABLE_SIZE` and the slot array has
`size` slots. -/
def LWF (ht : LinearProbingHashTable) : Prop :=
  ht.size = 1009 ∧ ht.table.length = 1009

/-- Number of occupied (non-sentinel) slots. -/
def occupied (t : List Int) : Nat := t.countP (fun v => decide (v ≠ -1))

/-- Invariant of every probing table built from the empty one by inserts of
non-negative keys: `count` is the number of occupied slots, stored keys are
non-negative, every slot between the home slot of a stored key and the slot
that holds it is occupied, and no key is stored twice. -/
structure LInv (ht : LinearProbingHashTable) : Prop where
  wf : LWF ht
  count_eq : ht.count = (occupied ht.table : Int)
  nonneg : ∀ i, i < 1009 → slotAt ht.table i ≠ -1 → 0 ≤ slotAt ht.table i
  path : ∀ i, i < 1009 → slotAt ht.table i ≠ -1 → ∀ d, d < 1009 →
    probeIdx (slotAt ht.table i) d = i →
    ∀ t, t < d → slotAt ht.table (probeIdx (slotAt ht.table i) t) ≠ -1
  uniq : ∀ i i', i < 1009 → i' < 1009 → slotAt ht.table i ≠ -1 →
    slotAt ht.table i = slotAt ht.table i' → i = i'

/-- The bucket `b` of an array of buckets (empty outside the array). -/
def bucketAt (chains : List (List Int)) (b : Nat) : List Int := chains.getD b []

/-- The bucket index of a non-negative `key`. -/
def homeIdx (key : Int) : Nat := key.toNat % 1009

/-- Well-formed chaining table: `size` is `TABLE_SIZE` and there are `size`
buckets. -/
def CWF (ht : SeparateChainingHashTable) : Prop :=
  ht.size = 1009 ∧ ht.chains.length = 1009

/-- The 1010 keys `0, 1009, 2018, ...`: pairwise distinct, all of home slot 0. -/
def home0_keys : List Int := List.map (fun i : Nat => 1009 * (i : Int)) (List.range 1010)

/-- The probing tables reachable from the empty table by calls of `linear_insert`
with non-negative keys. -/
inductive LReach : LinearProbingHashTable → Prop
  | empty : LReach create_linear_table
  | insert (ht : LinearProbingHashTable) (key res : Int) (ht1 : LinearProbingHashTable) :
      LReach ht → 0 ≤ key → linear_insert ht key = some (res, ht1) → LReach ht1

/-- The table left by `linear_insert` of the key `5` into the empty table. -/
def table_with_5 : LinearProbingHashTable :=
  { create_linear_table with
      table := create_linear_table.table.set 5 5
      count := 1
      probes := 1 }

/-- The table left by `chaining_insert` of the key `5` into the empty table. -/
def chains_with_5 : SeparateChainingHashTable :=
  { create_chaining_table with
      chains := create_chaining_table.chains.set 5 [5]
      count := 1 }

/-! ## The batch loops are folds -/

theorem linear_batch_shift (k : Int) (ks : List Int) :
    ∀ (steps i : Nat) (ht : LinearProbingHashTable) (st : Stats),
      linear_batch (k :: ks) steps (i + 1) ht st = linear_batch ks steps i ht st := by
  intro steps
  induction steps with
  | zero => intro i ht st; rfl
  | succ s ih =>
    intro i ht st
    simp only [linear_batch, List.getElem?_cons_succ]
    cases ks[i]? with
    | none => rfl
    | some key =>
      dsimp only
      cases linear_insert ht key with
      | none => rfl
      | some r => obtain ⟨res, ht1⟩ := r; exact ih _ _ _

theorem linear_batch_eq_feed :
    ∀ (ks : List Int) (n : Nat) (ht : LinearProbingHashTable) (st : Stats),
      n ≤ ks.length → linear_batch ks n 0 ht st = linear_feed (ks.take n) ht st := by
  intro ks
  induction ks with
  | nil =>
    intro n ht st hn
    have : n = 0 := by simpa using hn
    subst this; rfl
  | cons k ks ih =>
    intro n ht st hn
    cases n with
    | zero => rfl
    | succ n =>
      have hn1 : n ≤ ks.length := by simpa using hn
      simp only [linear_batch, List.getElem?_cons_zero, List.take_succ_cons, linear_feed]
      cases linear_insert ht k with
      | none => rfl
      | some r =>
        obtain ⟨res, ht1⟩ := r
        simp only [zero_add]
        rw [linear_batch_shift, ih n _ _ hn1]
        rfl

theorem chaining_batch_shift (k : Int) (ks : List Int) :
    ∀ (steps i : Nat) (ht : SeparateChainingHashTable) (st : Stats),
      chaining_batch (k :: ks) steps (i + 1) ht st = chaining_batch ks steps i ht st := by
  intro steps
  induction steps with
  | zero => intro i ht st; rfl
  | succ s ih =>
    intro i ht st
    simp only [chaining_batch, List.getElem?_cons_succ]
    cases ks[i]? with
    | none => rfl
    | some key =>
      dsimp only
      cases chaining_insert ht key with
      | none => rfl
      | some r => obtain ⟨res, ht1⟩ := r; exact ih _ _ _

theorem chaining_batch_eq_feed :
    ∀ (ks : List Int) (n : Nat) (ht : SeparateChainingHashTable) (st : Stats),
      n ≤ ks.length → chaining_batch ks n 0 ht st = chaining_feed (ks.take n) ht st := by
  intro ks
  induction ks with
  | nil =>
    intro n ht st hn
    have : n = 0 := by simpa using hn
    subst this; rfl
  | cons k ks ih =>
    intro n ht st hn
    cases n with
    | zero => rfl
    | succ n =>
      have hn1 : n ≤ ks.length := by simpa using hn
      simp only [chaining_batch, List.getElem?_cons_zero, List.take_succ_cons, chaining_feed]
      cases chaining_insert ht k with
      | none => rfl
      | some r =>
        obtain ⟨res, ht1⟩ := r
        simp only [zero_add]
        rw [chaining_batch_shift, ih n _ _ hn1]
        rfl

theorem linear_final_length (ks : List Int) :
    linear_final ks (ks.length : Int) = linear_feed ks create_linear_table ⟨0, 0, 0⟩ := by
  unfold linear_final
  rw [Int.toNat_ofNat, linear_batch_eq_feed ks ks.length _ _ (le_refl _), List.take_length]

theorem chaining_final_length (ks : List Int) :
    chaining_final ks (ks.length : Int) = chaining_feed ks create_chaining_table ⟨0, 0, 0⟩ := by
  unfold chaining_final
  rw [Int.toNat_ofNat, chaining_batch_eq_feed ks ks.length _ _ (le_refl _), List.take_length]

theorem linear_feed_append (a b : List Int) :
    ∀ (ht : LinearProbingHashTable) (st : Stats),
      linear_feed (a ++ b) ht st
        = (linear_feed a ht st).bind (fun p => linear_feed b p.1 p.2) := by
  induction a with
  | nil => intro ht st; rfl
  | cons k a ih =>
    intro ht st
    simp only [List.cons_append, linear_feed]
    cases linear_insert ht k with
    | none => rfl
    | some r => obtain ⟨res, ht1⟩ := r; exact ih _ _

theorem chaining_feed_append (a b : List Int) :
    ∀ (ht : SeparateChainingHashTable) (st : Stats),
      chaining_feed (a ++ b) ht st
        = (chaining_feed a ht st).bind (fun p => chaining_feed b p.1 p.2) := by
  induction a with
  | nil => intro ht st; rfl
  | cons k a ih =>
    intro ht st
    simp only [List.cons_append, chaining_feed]
    cases chaining_insert ht k with
    | none => rfl
    | some r => obtain ⟨res, ht1⟩ := r; exact ih _ _

/-! ## One call of `linear_insert` -/

theorem readAt_nat {α : Type} (a : List α) (i : Nat) : readAt a (i : Int) = a[i]? := by
  simp [readAt]

theorem slotAt_read (t : List Int) (i : Nat) (h : i < t.length) :
    t[i]? = some (slotAt t i) := by
  simp [slotAt, List.getD, List.getElem?_eq_getElem h]

theorem tmod_succ (i : Nat) :
    Int.tmod ((i : Int) + 1) 1009 = (((i + 1) % 1009 : Nat) : Int) := by
  rw [Int.tmod_eq_emod (by omega) (by omega)]
  omega

theorem hash1_nonneg (key : Int) (h : 0 ≤ key) :
    hash1 key = ((key.toNat % 1009 : Nat) : Int) := by
  unfold hash1 TABLE_SIZE
  rw [Int.tmod_eq_emod h (by omega)]
  omega

theorem loop_step_ins (fuel : Nat) (ht : LinearProbingHashTable) (key : Int) (i : Nat)
    (p : Int) (hwf : LWF ht) (hi : i < 1009) (h : slotAt ht.table i = -1) :
    linear_insert_loop (fuel + 1) ht key (i : Int) p
      = some (1, { ht with table := ht.table.set i key
                           count := ht.count + 1
                           probes := ht.probes + p }) := by
  have hlen : i < ht.table.length := by rw [hwf.2]; exact hi
  simp [linear_insert_loop, readAt_nat, slotAt_read _ _ hlen, h]

theorem loop_step_dup (fuel : Nat) (ht : LinearProbingHashTable) (key : Int) (i : Nat)
    (p : Int) (hwf : LWF ht) (hi : i < 1009) (h1 : slotAt ht.table i ≠ -1)
    (h : slotAt ht.table i = key) :
    linear_insert_loop (fuel + 1) ht key (i : Int) p
      = some (0, { ht with probes := ht.probes + p }) := by
  have hlen : i < ht.table.length := by rw [hwf.2]; exact hi
  have hk : key ≠ -1 := h ▸ h1
  simp [linear_insert_loop, readAt_nat, slotAt_read _ _ hlen, h, hk]

theorem loop_step_full (fuel : Nat) (ht : LinearProbingHashTable) (key : Int) (i : Nat)
    (p : Int) (hwf : LWF ht) (hi : i < 1009) (h1 : slotAt ht.table i ≠ -1)
    (h2 : slotAt ht.table i ≠ key) (hp : 1009 < p + 1) :
    linear_insert_loop (fuel + 1) ht key (i : Int) p
      = some (-1, { ht with collisions := ht.collisions + 1 }) := by
  have hlen : i < ht.table.length := by rw [hwf.2]; exact hi
  simp [linear_insert_loop, readAt_nat, slotAt_read _ _ hlen, h1, h2, hwf.1, hp]

theorem loop_step_skip (fuel : Nat) (ht : LinearProbingHashTable) (key : Int) (i : Nat)
    (p : Int) (hwf : LWF ht) (hi : i < 1009) (h1 : slotAt ht.table i ≠ -1)
    (h2 : slotAt ht.table i ≠ key) (hp : p + 1 ≤ 1009) :
    linear_insert_loop (fuel + 1) ht key (i : Int) p
      = linear_insert_loop fuel { ht with collisions := ht.collisions + 1 } key
          (((i + 1) % 1009 : Nat) : Int) (p + 1) := by
  have hlen : i < ht.table.length := by rw [hwf.2]; exact hi
  have hp2 : ¬ (1009 < p + 1) := by omega
  simp only [linear_insert_loop, readAt_nat, slotAt_read _ _ hlen, hwf.1, tmod_succ]
  simp [h1, h2, hp2]

/-- Skipping `j` occupied slots that do not hold `key`. -/
theorem loop_skip (key : Int) :
    ∀ (j fuel : Nat) (ht : LinearProbingHashTable) (i : Nat) (p : Int),
      LWF ht → i < 1009 →
      (∀ t, t < j → slotAt ht.table ((i + t) % 1009) ≠ -1
                    ∧ slotAt ht.table ((i + t) % 1009) ≠ key) →
      p + j ≤ 1009 →
      linear_insert_loop (fuel + j) ht key (i : Int) p
        = linear_insert_loop fuel { ht with collisions := ht.collisions + j } key
            (((i + j) % 1009 : Nat) : Int) (p + j) := by
  intro j
  induction j with
  | zero =>
    intro fuel ht i p _ hi _ _
    simp only [Nat.add_zero, Nat.cast_zero, add_zero, Nat.mod_eq_of_lt hi]
  | succ j ih =>
    intro fuel ht i p hwf hi hocc hp
    have h0 := hocc 0 (by omega)
    have hi0 : (i + 0) % 1009 = i := by omega
    rw [hi0] at h0
    have e1 : fuel + (j + 1) = (fuel + j) + 1 := by omega
    rw [e1, loop_step_skip _ ht key i p hwf hi h0.1 h0.2 (by push_cast at hp; omega)]
    have hwf1 : LWF { ht with collisions := ht.collisions + 1 } := hwf
    rw [ih fuel { ht with collisions := ht.collisions + 1 } ((i + 1) % 1009) (p + 1) hwf1
      (by omega)]
    · have e2 : ((i + 1) % 1009 + j) % 1009 = (i + (j + 1)) % 1009 := by omega
      have ec : ht.collisions + 1 + (j : Int) = ht.collisions + ((j + 1 : Nat) : Int) := by
        push_cast; ring
      have ep : p + 1 + (j : Int) = p + ((j + 1 : Nat) : Int) := by
        push_cast; ring
      rw [e2]
      simp only [ec, ep]
    · intro t ht'
      have e3 : ((i + 1) % 1009 + t) % 1009 = (i + (t + 1)) % 1009 := by omega
      rw [e3]
      exact hocc (t + 1) (by omega)
    · push_cast at hp ⊢
      omega

theorem probeIdx_lt (key : Int) (t : Nat) : probeIdx key t < 1009 := by
  unfold probeIdx; omega

/-- The scan meets an empty slot after `j` occupied slots that do not hold
`key`: the key is stored there. -/
theorem linear_insert_inserted (ht : LinearProbingHashTable) (key : Int) (j : Nat)
    (hwf : LWF ht) (hk : 0 ≤ key) (hj : j < 1009)
    (hocc : ∀ t, t < j → slotAt ht.table (probeIdx key t) ≠ -1
                        ∧ slotAt ht.table (probeIdx key t) ≠ key)
    (he : slotAt ht.table (probeIdx key j) = -1) :
    linear_insert ht key
      = some (1, { ht with table := ht.table.set (probeIdx key j) key
                           count := ht.count + 1
                           collisions := ht.collisions + j
                           probes := ht.probes + (1 + j) }) := by
  have e : ht.size.toNat = (1008 - j + 1) + j := by
    rw [hwf.1]
    have : (1009 : Int).toNat = 1009 := rfl
    omega
  have hwf1 : LWF { ht with collisions := ht.collisions + j } := hwf
  unfold linear_insert
  rw [e, hash1_nonneg key hk,
    loop_skip key j (1008 - j + 1) ht (key.toNat % 1009) 1 hwf (by omega) hocc (by omega)]
  exact loop_step_ins (1008 - j) _ key (probeIdx key j) _ hwf1 (probeIdx_lt _ _) he

/-- The scan meets `key` after `j` occupied slots that do not hold it: nothing
is stored. -/
theorem linear_insert_duplicate (ht : LinearProbingHashTable) (key : Int) (j : Nat)
    (hwf : LWF ht) (hk : 0 ≤ key) (hj : j < 1009)
    (hocc : ∀ t, t < j → slotAt ht.table (probeIdx key t) ≠ -1
                        ∧ slotAt ht.table (probeIdx key t) ≠ key)
    (he : slotAt ht.table (probeIdx key j) = key) :
    linear_insert ht key
      = some (0, { ht with collisions := ht.collisions + j
                           probes := ht.probes + (1 + j) }) := by
  have e : ht.size.toNat = (1008 - j + 1) + j := by
    rw [hwf.1]
    have : (1009 : Int).toNat = 1009 := rfl
    omega
  have hwf1 : LWF { ht with collisions := ht.collisions + j } := hwf
  have hne : slotAt ht.table (probeIdx key j) ≠ -1 := by rw [he]; omega
  unfold linear_insert
  rw [e, hash1_nonneg key hk,
    loop_skip key j (1008 - j + 1) ht (key.toNat % 1009) 1 hwf (by omega) hocc (by omega)]
  exact loop_step_dup (1008 - j) _ key (probeIdx key j) _ hwf1 (probeIdx_lt _ _) hne he

/-- The scan meets `size` occupied slots that do not hold `key`: full table. -/
theorem linear_insert_full (ht : LinearProbingHashTable) (key : Int)
    (hwf : LWF ht) (hk : 0 ≤ key)
    (hocc : ∀ t, t < 1009 → slotAt ht.table (probeIdx key t) ≠ -1
                           ∧ slotAt ht.table (probeIdx key t) ≠ key) :
    linear_insert ht key
      = some (-1, { ht with collisions := ht.collisions + 1009 }) := by
  have e : ht.size.toNat = (0 + 1) + 1008 := by rw [hwf.1]; rfl
  have hwf1 : LWF { ht with collisions := ht.collisions + (1008 : Nat) } := hwf
  have h8 := hocc 1008 (by omega)
  have hc : ht.collisions + ((1008 : Nat) : Int) + 1 = ht.collisions + 1009 := by
    push_cast; ring
  unfold linear_insert
  rw [e, hash1_nonneg key hk,
    loop_skip key 1008 (0 + 1) ht (key.toNat % 1009) 1 hwf (by omega)
      (fun t ht' => hocc t (by omega)) (by omega)]
  rw [← hc]
  exact loop_step_full 0 _ key (probeIdx key 1008) _ hwf1 (probeIdx_lt _ _) h8.1 h8.2
    (by norm_num)

/-- The three outcomes of `linear_insert` on a well-formed table and a
non-negative key, each with the table it leaves. -/
theorem linear_insert_cases (ht : LinearProbingHashTable) (key : Int)
    (hwf : LWF ht) (hk : 0 ≤ key) :
    (∃ j, j < 1009
        ∧ (∀ t, t < j → slotAt ht.table (probeIdx key t) ≠ -1
                        ∧ slotAt ht.table (probeIdx key t) ≠ key)
        ∧ slotAt ht.table (probeIdx key j) = -1
        ∧ linear_insert ht key
            = some (1, { ht with table := ht.table.set (probeIdx key j) key
                                 count := ht.count + 1
                                 collisions := ht.collisions + j
                                 probes := ht.probes + (1 + j) }))
    ∨ (∃ j, j < 1009
        ∧ (∀ t, t < j → slotAt ht.table (probeIdx key t) ≠ -1
                        ∧ slotAt ht.table (probeIdx key t) ≠ key)
        ∧ slotAt ht.table (probeIdx key j) = key
        ∧ linear_insert ht key
            = some (0, { ht with collisions := ht.collisions + j
                                 probes := ht.probes + (1 + j) }))
    ∨ ((∀ t, t < 1009 → slotAt ht.table (probeIdx key t) ≠ -1
                         ∧ slotAt ht.table (probeIdx key t) ≠ key)
        ∧ linear_insert ht key
            = some (-1, { ht with collisions := ht.collisions + 1009 })) := by
  by_cases hex : ∃ j, j < 1009 ∧ (slotAt ht.table (probeIdx key j) = -1
                                  ∨ slotAt ht.table (probeIdx key j) = key)
  · classical
    have hj := Nat.find_spec hex
    have hmin : ∀ t, t < Nat.find hex → slotAt ht.table (probeIdx key t) ≠ -1
                        ∧ slotAt ht.table (probeIdx key t) ≠ key := by
      intro t ht'
      have := Nat.find_min hex ht'
      have hlt : t < 1009 := by omega
      constructor
      · intro h; exact this ⟨hlt, Or.inl h⟩
      · intro h; exact this ⟨hlt, Or.inr h⟩
    rcases hj.2 with he | he
    · exact Or.inl ⟨_, hj.1, hmin, he, linear_insert_inserted ht key _ hwf hk hj.1 hmin he⟩
    · exact Or.inr (Or.inl
        ⟨_, hj.1, hmin, he, linear_insert_duplicate ht key _ hwf hk hj.1 hmin he⟩)
  · have hall : ∀ t, t < 1009 → slotAt ht.table (probeIdx key t) ≠ -1
                         ∧ slotAt ht.table (probeIdx key t) ≠ key := by
      intro t ht'
      constructor
      · intro h; exact hex ⟨t, ht', Or.inl h⟩
      · intro h; exact hex ⟨t, ht', Or.inr h⟩
    exact Or.inr (Or.inr ⟨hall, linear_insert_full ht key hwf hk hall⟩)

/-- On a well-formed table and a non-negative key `linear_insert` returns: the
fuel it gives its loop is enough and no read leaves the array. -/
theorem linear_insert_total (ht : LinearProbingHashTable) (key : Int)
    (hwf : LWF ht) (hk : 0 ≤ key) :
    ∃ res ht1, linear_insert ht key = some (res, ht1) := by
  rcases linear_insert_cases ht key hwf hk with ⟨j, _, _, _, h⟩ | ⟨j, _, _, _, h⟩ | ⟨_, h⟩
  · exact ⟨_, _, h⟩
  · exact ⟨_, _, h⟩
  · exact ⟨_, _, h⟩

/-! ## Slot arrays -/

theorem slotAt_set_self (t : List Int) (i : Nat) (v : Int) (h : i < t.length) :
    slotAt (t.set i v) i = v := by
  simp [slotAt, List.getD, List.getElem?_set, h]

theorem slotAt_set_ne (t : List Int) (i i' : Nat) (v : Int) (h : i' ≠ i) :
    slotAt (t.set i v) i' = slotAt t i' := by
  have h' : ¬ i = i' := fun e => h e.symm
  simp [slotAt, List.getD, List.getElem?_set, h']

theorem occupied_le (t : List Int) : occupied t ≤ t.length := by
  unfold occupied
  exact List.countP_le_length _

theorem occupied_set :
    ∀ (t : List Int) (i : Nat) (v : Int), i < t.length → slotAt t i = -1 → v ≠ -1 →
      occupied (t.set i v) = occupied t + 1 := by
  intro t
  induction t with
  | nil => intro i v h; simp at h
  | cons a t ih =>
    intro i v h he hv
    cases i with
    | zero =>
      have ha : a = -1 := by simpa [slotAt] using he
      subst ha
      simp [occupied, List.countP_cons, hv]
    | succ i =>
      have hi : i < t.length := by simpa using h
      have he' : slotAt t i = -1 := by simpa [slotAt] using he
      have := ih i v hi he' hv
      unfold occupied at this ⊢
      simp only [List.set_cons_succ, List.countP_cons, this]
      omega

theorem exists_empty (t : List Int) (h : occupied t < t.length) :
    ∃ i, i < t.length ∧ slotAt t i = -1 := by
  by_contra hne
  have hall : ∀ a ∈ t, decide (a ≠ -1) = true := by
    intro a ha
    obtain ⟨i, hi, rfl⟩ := List.getElem_of_mem ha
    have : slotAt t i ≠ -1 := fun e => hne ⟨i, hi, e⟩
    have e2 : slotAt t i = t[i] := by
      simp [slotAt, List.getD, List.getElem?_eq_getElem hi]
    rw [e2] at this
    simpa using this
  have := (List.countP_eq_length (p := fun v => decide (v ≠ -1)) (l := t)).2 hall
  unfold occupied at h
  omega

theorem occupied_full (t : List Int) (h : ∀ i, i < t.length → slotAt t i ≠ -1) :
    occupied t = t.length := by
  by_contra hne
  have hlt : occupied t < t.length := lt_of_le_of_ne (occupied_le t) hne
  obtain ⟨i, hi, he⟩ := exists_empty t hlt
  exact h i hi he

theorem probeIdx_surj (key : Int) (i : Nat) (hi : i < 1009) :
    ∃ d, d < 1009 ∧ probeIdx key d = i := by
  refine ⟨(i + 1009 - key.toNat % 1009) % 1009, by omega, ?_⟩
  unfold probeIdx
  omega

theorem probeIdx_inj (key : Int) (d d' : Nat) (hd : d < 1009) (hd' : d' < 1009)
    (h : probeIdx key d = probeIdx key d') : d = d' := by
  unfold probeIdx at h
  omega

/-! ## The invariant of the probing table -/

theorem slotAt_set (t : List Int) (i i' : Nat) (v : Int) (h : i < t.length) :
    slotAt (t.set i v) i' = if i' = i then v else slotAt t i' := by
  by_cases e : i' = i
  · subst e; simp [slotAt_set_self _ _ _ h]
  · simp [e, slotAt_set_ne _ _ _ _ e]

theorem slotAt_create (i : Nat) : slotAt create_linear_table.table i = -1 := by
  unfold slotAt create_linear_table
  by_cases h : i < TABLE_SIZE.toNat
  · simp [List.getD, List.getElem?_replicate, h]
  · simp [List.getD, List.getElem?_replicate, h]

theorem linv_create : LInv create_linear_table where
  wf := ⟨rfl, by
    show (List.replicate TABLE_SIZE.toNat (-1 : Int)).length = 1009
    rw [List.length_replicate]; rfl⟩
  count_eq := by
    simp [create_linear_table, occupied, List.countP_replicate]
  nonneg := fun i _ h => absurd (slotAt_create i) h
  path := fun i _ h => absurd (slotAt_create i) h
  uniq := fun i _ _ _ h => absurd (slotAt_create i) h

theorem linv_congr (ht ht1 : LinearProbingHashTable) (h : LInv ht)
    (ht_ : ht1.table = ht.table) (hs : ht1.size = ht.size) (hc : ht1.count = ht.count) :
    LInv ht1 where
  wf := by unfold LWF; rw [ht_, hs]; exact h.wf
  count_eq := by rw [ht_, hc]; exact h.count_eq
  nonneg := by rw [ht_]; exact h.nonneg
  path := by rw [ht_]; exact h.path
  uniq := by rw [ht_]; exact h.uniq

/-- A key whose scan ends on an empty slot is stored nowhere in the table. -/
theorem not_stored_of_empty (ht : LinearProbingHashTable) (key : Int) (j : Nat)
    (hinv : LInv ht) (hk : 0 ≤ key) (hj : j < 1009)
    (hocc : ∀ t, t < j → slotAt ht.table (probeIdx key t) ≠ -1
                        ∧ slotAt ht.table (probeIdx key t) ≠ key)
    (he : slotAt ht.table (probeIdx key j) = -1) :
    ∀ i, i < 1009 → slotAt ht.table i ≠ key := by
  intro i hi hik
  have hne : slotAt ht.table i ≠ -1 := by rw [hik]; omega
  obtain ⟨d, hd, hdi⟩ := probeIdx_surj key i hi
  rcases Nat.lt_trichotomy d j with hlt | heq | hgt
  · have := (hocc d hlt).2
    rw [hdi] at this
    exact this hik
  · subst heq
    rw [hdi] at he
    exact hne he
  · have hp := hinv.path i hi hne d hd (by rw [hik]; exact hdi) j hgt
    rw [hik] at hp
    exact hp he

theorem linv_inserted (ht : LinearProbingHashTable) (key : Int) (j : Nat) (c p : Int)
    (hinv : LInv ht) (hk : 0 ≤ key) (hj : j < 1009)
    (hocc : ∀ t, t < j → slotAt ht.table (probeIdx key t) ≠ -1
                        ∧ slotAt ht.table (probeIdx key t) ≠ key)
    (he : slotAt ht.table (probeIdx key j) = -1) :
    LInv { ht with table := ht.table.set (probeIdx key j) key
                   count := ht.count + 1
                   collisions := c
                   probes := p } := by
  have hlen : probeIdx key j < ht.table.length := by
    rw [hinv.wf.2]; exact probeIdx_lt _ _
  have hk1 : key ≠ -1 := by omega
  have hfresh := not_stored_of_empty ht key j hinv hk hj hocc he
  refine ⟨⟨hinv.wf.1, ?_⟩, ?_, ?_, ?_, ?_⟩
  · simp only [List.length_set]; exact hinv.wf.2
  · simp only
    rw [occupied_set _ _ _ hlen he hk1, hinv.count_eq]
    push_cast; rfl
  · intro i hi
    simp only [slotAt_set _ _ _ _ hlen]
    split_ifs with e
    · intro _; exact hk
    · exact hinv.nonneg i hi
  · intro i hi
    simp only [slotAt_set _ _ _ _ hlen]
    by_cases e : i = probeIdx key j
    · simp only [e, if_true]
      intro _ d hd hdi t htd
      have hdj : d = j := probeIdx_inj key d j hd hj hdi
      subst hdj
      have hne : probeIdx key t ≠ probeIdx key d := by
        intro h
        have := probeIdx_inj key t d (by omega) hd h
        omega
      simp only [hne, if_false]
      exact (hocc t htd).1
    · simp only [e, if_false]
      intro hne d hd hdi t htd
      split_ifs with e2
      · exact hk1
      · exact hinv.path i hi hne d hd hdi t htd
  · intro i i' hi hi'
    simp only [slotAt_set _ _ _ _ hlen]
    by_cases e : i = probeIdx key j <;> by_cases e' : i' = probeIdx key j
    · intro _ _; rw [e, e']
    · simp only [e, e', if_true, if_false]
      intro _ h
      exact absurd h.symm (hfresh i' hi')
    · simp only [e, e', if_true, if_false]
      intro _ h
      exact absurd h (hfresh i hi)
    · simp only [e, e', if_false]
      exact hinv.uniq i i' hi hi'

/-- A stored key is found by the scan: `linear_insert` returns `0` and changes
the counters only. -/
theorem linear_insert_stored (ht : LinearProbingHashTable) (key : Int) (i : Nat)
    (hinv : LInv ht) (hk : 0 ≤ key) (hi : i < 1009) (hik : slotAt ht.table i = key) :
    ∃ j : Nat, j < 1009 ∧ linear_insert ht key
      = some (0, { ht with collisions := ht.collisions + j
                           probes := ht.probes + (1 + j) }) := by
  rcases linear_insert_cases ht key hinv.wf hk with
    ⟨j, hj, hocc, he, _⟩ | ⟨j, hj, _, _, h⟩ | ⟨hocc, _⟩
  · exact absurd hik (not_stored_of_empty ht key j hinv hk hj hocc he i hi)
  · exact ⟨j, hj, h⟩
  · obtain ⟨d, hd, hdi⟩ := probeIdx_surj key i hi
    have := (hocc d hd).2
    rw [hdi] at this
    exact absurd hik this

/-- A key that is not stored goes into the first empty slot of its probe
sequence when the table has an empty slot. -/
theorem linear_insert_fresh (ht : LinearProbingHashTable) (key : Int)
    (hinv : LInv ht) (hk : 0 ≤ key) (hfresh : ∀ i, i < 1009 → slotAt ht.table i ≠ key)
    (hroom : occupied ht.table < 1009) :
    ∃ j, j < 1009
      ∧ (∀ t, t < j → slotAt ht.table (probeIdx key t) ≠ -1
                      ∧ slotAt ht.table (probeIdx key t) ≠ key)
      ∧ slotAt ht.table (probeIdx key j) = -1
      ∧ linear_insert ht key
          = some (1, { ht with table := ht.table.set (probeIdx key j) key
                               count := ht.count + 1
                               collisions := ht.collisions + j
                               probes := ht.probes + (1 + j) }) := by
  rcases linear_insert_cases ht key hinv.wf hk with
    ⟨j, hj, hocc, he, h⟩ | ⟨j, _, _, he, _⟩ | ⟨hocc, _⟩
  · exact ⟨j, hj, hocc, he, h⟩
  · exact absurd he (hfresh _ (probeIdx_lt _ _))
  · have hlen := hinv.wf.2
    obtain ⟨i, hi, he⟩ := exists_empty ht.table (by omega)
    obtain ⟨d, hd, hdi⟩ := probeIdx_surj key i (by omega)
    have := (hocc d hd).1
    rw [hdi] at this
    exact absurd he this

/-- What one call of `linear_insert` with a non-negative key does to a table
that satisfies the invariant. -/
theorem linear_insert_step (ht : LinearProbingHashTable) (key : Int)
    (hinv : LInv ht) (hk : 0 ≤ key) :
    ∃ res ht1, linear_insert ht key = some (res, ht1)
      ∧ LInv ht1
      ∧ ht1.count = ht.count + (if res = 1 then 1 else 0)
      ∧ (∀ i, i < 1009 → slotAt ht.table i ≠ -1 → slotAt ht1.table i = slotAt ht.table i)
      ∧ (∀ i, i < 1009 → slotAt ht1.table i ≠ -1 →
            slotAt ht1.table i = slotAt ht.table i ∨ slotAt ht1.table i = key)
      ∧ (res = 1 → ∃ i, i < 1009 ∧ slotAt ht1.table i = key)
      ∧ ht.probes ≤ ht1.probes
      ∧ ht.collisions ≤ ht1.collisions := by
  rcases linear_insert_cases ht key hinv.wf hk with
    ⟨j, hj, hocc, he, h⟩ | ⟨j, hj, _, _, h⟩ | ⟨_, h⟩
  · have hlen : probeIdx key j < ht.table.length := by
      rw [hinv.wf.2]; exact probeIdx_lt _ _
    refine ⟨_, _, h, linv_inserted ht key j _ _ hinv hk hj hocc he, by simp, ?_, ?_, ?_,
      ?_, ?_⟩
    · intro i _ hne
      simp only [slotAt_set _ _ _ _ hlen]
      split_ifs with e
      · rw [e] at hne; exact absurd he hne
      · rfl
    · intro i _ _
      simp only [slotAt_set _ _ _ _ hlen]
      split_ifs with e
      · exact Or.inr rfl
      · exact Or.inl rfl
    · intro _
      exact ⟨probeIdx key j, probeIdx_lt _ _, slotAt_set_self _ _ _ hlen⟩
    · simp only; omega
    · simp only; omega
  · refine ⟨_, _, h, linv_congr _ _ hinv rfl rfl rfl, by simp, ?_, ?_, ?_, ?_, ?_⟩
    · intro i _ _; rfl
    · intro i _ _; exact Or.inl rfl
    · intro h01; simp at h01
    · simp only; omega
    · simp only; omega
  · refine ⟨_, _, h, linv_congr _ _ hinv rfl rfl rfl, by simp, ?_, ?_, ?_, ?_, ?_⟩
    · intro i _ _; rfl
    · intro i _ _; exact Or.inl rfl
    · intro h01; simp at h01
    · simp only; omega
    · simp only; omega

/-! ## Batches of `linear_insert` -/

theorem bump_inserts (res : Int) (st : Stats) :
    (bump res st).total_inserts = st.total_inserts + (if res = 1 then 1 else 0) := by
  unfold bump
  split_ifs <;> simp

/-- Any batch of non-negative keys runs to its end and keeps the invariant; the
number of accepted keys is the growth of `count`. -/
theorem linear_feed_inv :
    ∀ (ks : List Int) (ht : LinearProbingHashTable) (st : Stats),
      LInv ht → (∀ k ∈ ks, 0 ≤ k) →
      ∃ ht1 st1, linear_feed ks ht st = some (ht1, st1)
        ∧ LInv ht1
        ∧ st1.total_inserts - st.total_inserts = ht1.count - ht.count
        ∧ (∀ i, i < 1009 → slotAt ht.table i ≠ -1 →
              slotAt ht1.table i = slotAt ht.table i)
        ∧ (∀ i, i < 1009 → slotAt ht1.table i ≠ -1 →
              slotAt ht1.table i = slotAt ht.table i ∨ slotAt ht1.table i ∈ ks)
        ∧ ht.probes ≤ ht1.probes
        ∧ ht.collisions ≤ ht1.collisions := by
  intro ks
  induction ks with
  | nil =>
    intro ht st hinv _
    exact ⟨ht, st, rfl, hinv, by simp, fun _ _ _ => rfl, fun _ _ _ => Or.inl rfl,
      le_refl _, le_refl _⟩
  | cons k ks ih =>
    intro ht st hinv hnn
    obtain ⟨res, ht1, h1, hinv1, hc1, hkeep1, hfrom1, _, hp1, hcl1⟩ :=
      linear_insert_step ht k hinv (hnn k (List.mem_cons_self _ _))
    obtain ⟨ht2, st2, h2, hinv2, hc2, hkeep2, hfrom2, hp2, hcl2⟩ :=
      ih ht1 (bump res st) hinv1 (fun x hx => hnn x (List.mem_cons_of_mem _ hx))
    refine ⟨ht2, st2, ?_, hinv2, ?_, ?_, ?_, by omega, by omega⟩
    · simp only [linear_feed, h1]; exact h2
    · rw [bump_inserts] at hc2; omega
    · intro i hi hne
      have e1 := hkeep1 i hi hne
      rw [hkeep2 i hi (by rw [e1]; exact hne), e1]
    · intro i hi hne
      rcases hfrom2 i hi hne with e | e
      · rw [e]
        rw [e] at hne
        rcases hfrom1 i hi hne with e1 | e1
        · exact Or.inl e1
        · exact Or.inr (by rw [e1]; exact List.mem_cons_self _ _)
      · exact Or.inr (List.mem_cons_of_mem _ e)

theorem linear_final_of_length (ks : List Int) (n : Nat) (h : ks.length = n) :
    linear_final ks (n : Int) = linear_feed ks create_linear_table ⟨0, 0, 0⟩ := by
  subst h
  exact linear_final_length ks

theorem run_linear_probing_of_feed (ks : List Int) (n : Nat) (h : ks.length = n)
    (ht : LinearProbingHashTable) (st : Stats)
    (hf : linear_feed ks create_linear_table ⟨0, 0, 0⟩ = some (ht, st)) :
    run_linear_probing ks (n : Int)
      = some { st with total_collisions := ht.collisions, total_probes := ht.probes } := by
  unfold run_linear_probing
  rw [linear_final_of_length ks n h, hf]

/-- Pairwise-distinct non-negative keys that are not stored yet are all
accepted while the table has room for them. -/
theorem linear_feed_distinct :
    ∀ (ks : List Int) (ht : LinearProbingHashTable) (st : Stats),
      LInv ht → (∀ k ∈ ks, 0 ≤ k) → ks.Nodup →
      (∀ k ∈ ks, ∀ i, i < 1009 → slotAt ht.table i ≠ k) →
      occupied ht.table + ks.length ≤ 1009 →
      ∃ ht1 st1, linear_feed ks ht st = some (ht1, st1)
        ∧ st1.total_inserts = st.total_inserts + ks.length
        ∧ LInv ht1 := by
  intro ks
  induction ks with
  | nil =>
    intro ht st hinv _ _ _ _
    exact ⟨ht, st, rfl, by simp, hinv⟩
  | cons k ks ih =>
    intro ht st hinv hnn hnd hfresh hroom
    have hk : 0 ≤ k := hnn k (List.mem_cons_self _ _)
    have hlen := hinv.wf.2
    simp only [List.length_cons] at hroom
    obtain ⟨j, hj, hocc, he, h1⟩ :=
      linear_insert_fresh ht k hinv hk (hfresh k (List.mem_cons_self _ _)) (by omega)
    have hpos : probeIdx k j < ht.table.length := by rw [hlen]; exact probeIdx_lt _ _
    have hinv1 := linv_inserted ht k j (ht.collisions + j) (ht.probes + (1 + j)) hinv hk hj
      hocc he
    have hnd' := List.nodup_cons.1 hnd
    obtain ⟨ht2, st2, h2, hst2, hinv2⟩ := ih _ (bump 1 st) hinv1
      (fun x hx => hnn x (List.mem_cons_of_mem _ hx)) hnd'.2
      (by
        intro x hx i hi
        simp only [slotAt_set _ _ _ _ hpos]
        split_ifs with e
        · intro hkx
          rw [hkx] at hnd'
          exact hnd'.1 hx
        · exact hfresh x (List.mem_cons_of_mem _ hx) i hi)
      (by
        simp only
        rw [occupied_set _ _ _ hpos he (by omega)]
        omega)
    refine ⟨ht2, st2, ?_, ?_, hinv2⟩
    · simp only [linear_feed, h1]; exact h2
    · rw [hst2, bump_inserts]
      simp only [if_true, List.length_cons]
      push_cast
      ring

/-! ## Settled claims: linear probing -/

/-- C1: for every sequence of pairwise-distinct non-negative keys of length
`n ≤ TABLE_SIZE`, `run_hash_test` with method `LINEAR_PROBING` returns, and
`total_inserts` is `n`: every key is accepted. -/
theorem linear_distinct_keys_all_inserted (ks : List Int) (hnn : ∀ k ∈ ks, 0 ≤ k)
    (hnd : ks.Nodup) (hn : (ks.length : Int) ≤ TABLE_SIZE) :
    ∃ s, run_hash_test ks (ks.length : Int) LINEAR_PROBING = some s
      ∧ s.total_inserts = (ks.length : Int) := by
  have hn' : ks.length ≤ 1009 := by unfold TABLE_SIZE at hn; omega
  obtain ⟨ht1, st1, h1, hst1, _⟩ :=
    linear_feed_distinct ks create_linear_table ⟨0, 0, 0⟩ linv_create hnn hnd (fun k _ i _ => by
      rw [slotAt_create]
      have := hnn k ‹_›
      omega)
    (by
      have : occupied create_linear_table.table = 0 := by
        have := linv_create.count_eq
        simp only [create_linear_table] at this ⊢
        omega
      omega)
  have hr := run_linear_probing_of_feed ks ks.length rfl _ _ h1
  exact ⟨_, by simpa [run_hash_test] using hr, by simpa using hst1⟩

/-- Witness of C1 on the keys `[5, 1014, 2023]`. -/
theorem linear_distinct_keys_all_inserted_witness :
    (∀ k ∈ ([5, 1014, 2023] : List Int), 0 ≤ k) ∧ ([5, 1014, 2023] : List Int).Nodup
      ∧ ∃ s, run_hash_test [5, 1014, 2023] (([5, 1014, 2023] : List Int).length : Int)
          LINEAR_PROBING = some s
        ∧ s.total_inserts = (([5, 1014, 2023] : List Int).length : Int) :=
  ⟨by decide, by decide,
    linear_distinct_keys_all_inserted [5, 1014, 2023] (by decide) (by decide) (by decide)⟩

/-- C6: for every sequence of non-negative keys, `run_linear_probing` returns
and `total_inserts ≤ TABLE_SIZE`: in the table reached from the empty one
`count` is the number of occupied slots, hence at most `TABLE_SIZE`, and
`total_inserts` is that `count`. -/
theorem linear_total_inserts_le_capacity (ks : List Int) (hnn : ∀ k ∈ ks, 0 ≤ k) :
    ∃ ht st s, linear_final ks (ks.length : Int) = some (ht, st)
      ∧ run_linear_probing ks (ks.length : Int) = some s
      ∧ ht.count = (occupied ht.table : Int)
      ∧ ht.count ≤ TABLE_SIZE
      ∧ s.total_inserts = ht.count
      ∧ s.total_inserts ≤ TABLE_SIZE := by
  obtain ⟨ht1, st1, h1, hinv1, hc1, _⟩ :=
    linear_feed_inv ks create_linear_table ⟨0, 0, 0⟩ linv_create hnn
  have hle : (occupied ht1.table : Int) ≤ 1009 := by
    have := occupied_le ht1.table
    rw [hinv1.wf.2] at this
    omega
  have hcnt : st1.total_inserts = ht1.count := by
    simp only [create_linear_table] at hc1
    omega
  refine ⟨ht1, st1, _, ?_, run_linear_probing_of_feed ks ks.length rfl _ _ h1,
    hinv1.count_eq, ?_, hcnt, ?_⟩
  · rw [linear_final_length, h1]
  · rw [hinv1.count_eq]; exact hle
  · show st1.total_inserts ≤ TABLE_SIZE
    rw [hcnt, hinv1.count_eq]; exact hle

/-- Witness of C6 on the keys `[5, 5, 1014]`. -/
theorem linear_total_inserts_le_capacity_witness :
    (∀ k ∈ ([5, 5, 1014] : List Int), 0 ≤ k)
      ∧ ∃ ht st s, linear_final [5, 5, 1014] (([5, 5, 1014] : List Int).length : Int)
            = some (ht, st)
        ∧ run_linear_probing [5, 5, 1014] (([5, 5, 1014] : List Int).length : Int) = some s
        ∧ ht.count = (occupied ht.table : Int)
        ∧ ht.count ≤ TABLE_SIZE
        ∧ s.total_inserts = ht.count
        ∧ s.total_inserts ≤ TABLE_SIZE :=
  ⟨by decide, linear_total_inserts_le_capacity [5, 5, 1014] (by decide)⟩

/-- Counterexample to C7 as stated: on `[5, 1014, 2023]` linear probing does not
return `total_collisions = 2`. -/
theorem scenario1_collisions_not_two :
    run_hash_test [5, 1014, 2023] 3 1 ≠ some ⟨3, 2, 6⟩ := by
  decide

/-- C7 (amended): with capacity 1009, `run_hash_test` on the keys
`[5, 1014, 2023]`, `n = 3`, method 1 returns `total_inserts = 3`,
`total_collisions = 3` (one per occupied slot passed over: 0 + 1 + 2) and
`total_probes = 6`. -/
theorem scenario1_linear_probing :
    run_hash_test [5, 1014, 2023] 3 1 = some ⟨3, 3, 6⟩ := by
  decide

/-- Repeats of a key that sits in its home slot: each costs one probe and
changes nothing else. -/
theorem linear_feed_repeat (x : Int) (hx : 0 ≤ x) :
    ∀ (m : Nat) (ht : LinearProbingHashTable) (st : Stats),
      LWF ht → slotAt ht.table (probeIdx x 0) = x →
      ∃ ht1, linear_feed (List.replicate m x) ht st = some (ht1, st)
        ∧ ht1.collisions = ht.collisions ∧ ht1.probes = ht.probes + m := by
  intro m
  induction m with
  | zero =>
    intro ht st _ _
    exact ⟨ht, rfl, rfl, by simp⟩
  | succ m ih =>
    intro ht st hwf hs
    have h1 := linear_insert_duplicate ht x 0 hwf hx (by omega)
      (fun t ht' => absurd ht' (Nat.not_lt_zero t)) hs
    obtain ⟨ht2, h2, hc2, hp2⟩ := ih
      { ht with collisions := ht.collisions + (0 : Nat), probes := ht.probes + (1 + (0 : Nat)) }
      st hwf hs
    refine ⟨ht2, ?_, ?_, ?_⟩
    · simp only [List.replicate_succ, linear_feed, h1]
      have hb : bump 0 st = st := by simp [bump]
      rw [hb]; exact h2
    · rw [hc2]; simp
    · rw [hp2]; push_cast; ring

/-- C9: for every non-negative key `x` and every `m ≥ 1`, `run_hash_test` on `m`
copies of `x` with method `LINEAR_PROBING` returns `total_inserts = 1`,
`total_collisions = 0` and `total_probes = m`. -/
theorem linear_repeated_key (x : Int) (m : Nat) (hx : 0 ≤ x) (hm : 1 ≤ m) :
    run_hash_test (List.replicate m x) (m : Int) LINEAR_PROBING
      = some ⟨1, 0, (m : Int)⟩ := by
  obtain ⟨m', rfl⟩ : ∃ m', m = m' + 1 := ⟨m - 1, by omega⟩
  have hwf := linv_create.wf
  have hlen : probeIdx x 0 < create_linear_table.table.length := by
    rw [hwf.2]; exact probeIdx_lt _ _
  have h1 := linear_insert_inserted create_linear_table x 0 hwf hx (by omega)
    (fun t ht' => absurd ht' (Nat.not_lt_zero t)) (slotAt_create _)
  obtain ⟨ht2, h2, hc2, hp2⟩ := linear_feed_repeat x hx m'
    { create_linear_table with
        table := create_linear_table.table.set (probeIdx x 0) x
        count := create_linear_table.count + 1
        collisions := create_linear_table.collisions + (0 : Nat)
        probes := create_linear_table.probes + (1 + (0 : Nat)) }
    (bump 1 ⟨0, 0, 0⟩)
    ⟨hwf.1, by simp only [List.length_set]; exact hwf.2⟩
    (slotAt_set_self _ _ _ hlen)
  have hf : linear_feed (List.replicate (m' + 1) x) create_linear_table ⟨0, 0, 0⟩
      = some (ht2, bump 1 ⟨0, 0, 0⟩) := by
    simp only [List.replicate_succ, linear_feed, h1]
    exact h2
  have hr := run_linear_probing_of_feed (List.replicate (m' + 1) x) (m' + 1)
    (List.length_replicate _ _) _ _ hf
  simp only [run_hash_test, if_true]
  rw [hr, hc2, hp2]
  simp only [bump, create_linear_table, if_true]
  congr 2
  push_cast
  ring

/-- Witness of C9: the keys `[5, 5, 5]` give `(1, 0, 3)`. -/
theorem linear_repeated_key_witness :
    run_hash_test (List.replicate 3 5) ((3 : Nat) : Int) LINEAR_PROBING
      = some ⟨1, 0, ((3 : Nat) : Int)⟩ :=
  linear_repeated_key 5 3 (by decide) (by decide)

theorem probeIdx_home0 (k : Int) (hk : 0 ≤ k) (h0 : hash1 k = 0) (t : Nat) (ht : t < 1009) :
    probeIdx k t = t := by
  have h := hash1_nonneg k hk
  rw [h0] at h
  unfold probeIdx
  omega

/-- Keys of home slot 0 fed to a table whose occupied slots are exactly the
first `m`: key number `t` (from `0`) lands in slot `m + t` after `m + t`
collisions. -/
theorem linear_feed_home0 :
    ∀ (ks : List Int) (ht : LinearProbingHashTable) (st : Stats) (m : Nat),
      LWF ht → (∀ k ∈ ks, 0 ≤ k ∧ hash1 k = 0) → ks.Nodup →
      (∀ k ∈ ks, ∀ i, i < 1009 → slotAt ht.table i ≠ k) →
      (∀ i, i < 1009 → (slotAt ht.table i ≠ -1 ↔ i < m)) →
      m + ks.length ≤ 1009 →
      ∃ ht1 st1, linear_feed ks ht st = some (ht1, st1)
        ∧ LWF ht1
        ∧ st1.total_inserts = st.total_inserts + ks.length
        ∧ (∀ i, i < 1009 → (slotAt ht1.table i ≠ -1 ↔ i < m + ks.length))
        ∧ (∀ i, i < 1009 → slotAt ht1.table i ≠ -1 →
              slotAt ht1.table i = slotAt ht.table i ∨ slotAt ht1.table i ∈ ks)
        ∧ 2 * ht1.collisions = 2 * ht.collisions
            + ((m : Int) + ks.length) * ((m : Int) + ks.length - 1) - (m : Int) * ((m : Int) - 1)
        ∧ 2 * ht1.probes = 2 * ht.probes
            + ((m : Int) + ks.length) * ((m : Int) + ks.length + 1)
            - (m : Int) * ((m : Int) + 1) := by
  intro ks
  induction ks with
  | nil =>
    intro ht st m hwf _ _ _ hpre _
    refine ⟨ht, st, rfl, hwf, by simp, by simpa using hpre, fun _ _ _ => Or.inl rfl, ?_, ?_⟩
    · simp
    · simp
  | cons k ks ih =>
    intro ht st m hwf h0 hnd hfresh hpre hroom
    simp only [List.length_cons] at hroom
    obtain ⟨hk, hk0⟩ := h0 k (List.mem_cons_self _ _)
    have hm : m < 1009 := by omega
    have hpos : m < ht.table.length := by rw [hwf.2]; exact hm
    have hnd' := List.nodup_cons.1 hnd
    have hocc : ∀ t, t < m → slotAt ht.table (probeIdx k t) ≠ -1
                        ∧ slotAt ht.table (probeIdx k t) ≠ k := by
      intro t htm
      rw [probeIdx_home0 k hk hk0 t (by omega)]
      exact ⟨(hpre t (by omega)).2 htm, hfresh k (List.mem_cons_self _ _) t (by omega)⟩
    have he : slotAt ht.table (probeIdx k m) = -1 := by
      rw [probeIdx_home0 k hk hk0 m hm]
      by_contra hne
      exact absurd ((hpre m hm).1 hne) (lt_irrefl m)
    have h1 := linear_insert_inserted ht k m hwf hk hm hocc he
    rw [probeIdx_home0 k hk hk0 m hm] at h1
    obtain ⟨ht2, st2, h2, hwf2, hst2, hpre2, hfrom2, hc2, hp2⟩ := ih
      { ht with table := ht.table.set m k
                count := ht.count + 1
                collisions := ht.collisions + m
                probes := ht.probes + (1 + m) }
      (bump 1 st) (m + 1)
      ⟨hwf.1, by simp only [List.length_set]; exact hwf.2⟩
      (fun x hx => h0 x (List.mem_cons_of_mem _ hx)) hnd'.2
      (by
        intro x hx i hi
        simp only [slotAt_set _ _ _ _ hpos]
        split_ifs with e
        · intro hkx
          rw [hkx] at hnd'
          exact hnd'.1 hx
        · exact hfresh x (List.mem_cons_of_mem _ hx) i hi)
      (by
        intro i hi
        simp only [slotAt_set _ _ _ _ hpos]
        split_ifs with e
        · constructor
          · intro _; omega
          · intro _; omega
        · rw [hpre i hi]; omega)
      (by omega)
    refine ⟨ht2, st2, ?_, hwf2, ?_, ?_, ?_, ?_, ?_⟩
    · simp only [linear_feed, h1]; exact h2
    · rw [hst2, bump_inserts]
      simp only [if_true, List.length_cons]
      push_cast; ring
    · intro i hi
      rw [hpre2 i hi, List.length_cons]
      omega
    · intro i hi hne
      rcases hfrom2 i hi hne with e | e
      · simp only [slotAt_set _ _ _ _ hpos] at e
        split_ifs at e with e'
        · exact Or.inr (by rw [e]; exact List.mem_cons_self _ _)
        · exact Or.inl e
      · exact Or.inr (List.mem_cons_of_mem _ e)
    · rw [hc2]
      simp only [List.length_cons]
      push_cast; ring
    · rw [hp2]
      simp only [List.length_cons]
      push_cast; ring

/-- At most `TABLE_SIZE` pairwise-distinct keys of home slot 0, fed to the empty
table: the statistics and the table they leave. -/
theorem linear_feed_home0_create (ks : List Int) (h0 : ∀ k ∈ ks, 0 ≤ k ∧ hash1 k = 0)
    (hnd : ks.Nodup) (hlen : ks.length ≤ 1009) :
    ∃ ht1 st1, linear_feed ks create_linear_table ⟨0, 0, 0⟩ = some (ht1, st1)
      ∧ LWF ht1
      ∧ st1.total_inserts = ks.length
      ∧ (∀ i, i < 1009 → (slotAt ht1.table i ≠ -1 ↔ i < ks.length))
      ∧ (∀ i, i < 1009 → slotAt ht1.table i ≠ -1 → slotAt ht1.table i ∈ ks)
      ∧ 2 * ht1.collisions = (ks.length : Int) * ((ks.length : Int) - 1)
      ∧ 2 * ht1.probes = (ks.length : Int) * ((ks.length : Int) + 1) := by
  obtain ⟨ht1, st1, h1, hwf1, hst1, hpre1, hfrom1, hc1, hp1⟩ :=
    linear_feed_home0 ks create_linear_table ⟨0, 0, 0⟩ 0 linv_create.wf h0 hnd
      (fun k hk i _ => by
        rw [slotAt_create]
        have := (h0 k hk).1
        omega)
      (fun i _ => by
        rw [slotAt_create]
        simp)
      (by omega)
  refine ⟨ht1, st1, h1, hwf1, by simpa using hst1, ?_, ?_, ?_, ?_⟩
  · intro i hi
    rw [hpre1 i hi]; omega
  · intro i hi hne
    rcases hfrom1 i hi hne with e | e
    · rw [e, slotAt_create] at hne
      exact absurd rfl hne
    · exact e
  · rw [hc1]
    simp only [create_linear_table]
    push_cast; ring
  · rw [hp1]
    simp only [create_linear_table]
    push_cast; ring

/-- C3: full-table law. For every sequence of `TABLE_SIZE + 1 = 1010`
pairwise-distinct non-negative keys that all hash to slot 0:
the run on the first `i ≤ 1009` keys returns `total_inserts = i`,
`total_collisions = i (i - 1) / 2` and `total_probes = i (i + 1) / 2` (the `i`-th
accepted key adds `i - 1` collisions and `i` probes), and the run on all 1010
keys returns `total_inserts = 1009`, `total_collisions = 509545` (the rejected key
adds 1009) and `total_probes = 509545` (the rejected key adds nothing). -/
theorem linear_full_table_law (ks : List Int) (hlen : ks.length = 1010) (hnd : ks.Nodup)
    (h0 : ∀ k ∈ ks, 0 ≤ k ∧ hash1 k = 0) :
    (∀ i : Nat, i ≤ 1009 →
        run_linear_probing (ks.take i) (i : Int)
          = some ⟨(i : Int), (i : Int) * ((i : Int) - 1) / 2, (i : Int) * ((i : Int) + 1) / 2⟩)
    ∧ run_linear_probing ks 1010 = some ⟨1009, 509545, 509545⟩ := by
  have hpre : ∀ i : Nat, i ≤ 1009 →
      ∃ ht1 st1, linear_feed (ks.take i) create_linear_table ⟨0, 0, 0⟩ = some (ht1, st1)
        ∧ LWF ht1 ∧ st1.total_inserts = (i : Int)
        ∧ (∀ t, t < 1009 → (slotAt ht1.table t ≠ -1 ↔ t < i))
        ∧ (∀ t, t < 1009 → slotAt ht1.table t ≠ -1 → slotAt ht1.table t ∈ ks.take i)
        ∧ 2 * ht1.collisions = (i : Int) * ((i : Int) - 1)
        ∧ 2 * ht1.probes = (i : Int) * ((i : Int) + 1) := by
    intro i hi
    have hl : (ks.take i).length = i := by rw [List.length_take]; omega
    have := linear_feed_home0_create (ks.take i)
      (fun k hk => h0 k (List.mem_of_mem_take hk))
      (hnd.sublist (List.take_sublist _ _)) (by omega)
    rw [hl] at this
    exact this
  constructor
  · intro i hi
    obtain ⟨ht1, st1, h1, _, hst1, _, _, hc1, hp1⟩ := hpre i hi
    have hl : (ks.take i).length = i := by rw [List.length_take]; omega
    rw [run_linear_probing_of_feed (ks.take i) i hl _ _ h1]
    have e1 : ht1.collisions = (i : Int) * ((i : Int) - 1) / 2 := by omega
    have e2 : ht1.probes = (i : Int) * ((i : Int) + 1) / 2 := by omega
    rw [e1, e2, hst1]
  · obtain ⟨ht1, st1, h1, hwf1, hst1, hocc1, hfrom1, hc1, hp1⟩ := hpre 1009 (le_refl _)
    have hsplit : ks = ks.take 1009 ++ ks.drop 1009 := (List.take_append_drop _ _).symm
    obtain ⟨x, hx⟩ : ∃ x, ks.drop 1009 = [x] := by
      have hl : (ks.drop 1009).length = 1 := by rw [List.length_drop]; omega
      match hd : ks.drop 1009, hl with
      | [x], _ => exact ⟨x, rfl⟩
    rw [hx] at hsplit
    have hxk : x ∈ ks := by rw [hsplit]; simp
    have hxn : x ∉ ks.take 1009 := by
      rw [hsplit] at hnd
      have := (List.nodup_append.1 hnd).2.2
      intro hmem
      exact this hmem (List.mem_singleton_self x)
    have h2 := linear_insert_full ht1 x hwf1 (h0 x hxk).1 (fun t _ => by
      have hlt := probeIdx_lt x t
      have hne := (hocc1 _ hlt).2 hlt
      refine ⟨hne, ?_⟩
      intro he
      have := hfrom1 _ hlt hne
      rw [he] at this
      exact hxn this)
    have hF : linear_feed ks create_linear_table ⟨0, 0, 0⟩
        = some ({ ht1 with collisions := ht1.collisions + 1009 }, bump (-1) st1) := by
      rw [hsplit, linear_feed_append, h1]
      simp only [Option.some_bind, linear_feed, h2]
    have hr := run_linear_probing_of_feed ks 1010 hlen _ _ hF
    have e0 : (bump (-1) st1).total_inserts = 1009 := by
      rw [bump_inserts, hst1]; simp
    have e1 : ht1.collisions + 1009 = 509545 := by push_cast at hc1; omega
    have e2 : ht1.probes = 509545 := by push_cast at hp1; omega
    simp only [Nat.cast_ofNat] at hr
    rw [hr]
    simp only [e0, e1, e2]

theorem home0_keys_length : home0_keys.length = 1010 := by
  simp [home0_keys]

theorem home0_keys_nodup : home0_keys.Nodup := by
  unfold home0_keys
  refine List.Nodup.map ?_ (List.nodup_range 1010)
  intro a b h
  simp only at h
  omega

theorem home0_keys_hash (k : Int) (hk : k ∈ home0_keys) : 0 ≤ k ∧ hash1 k = 0 := by
  unfold home0_keys at hk
  obtain ⟨i, _, rfl⟩ := List.mem_map.1 hk
  refine ⟨by omega, ?_⟩
  unfold hash1 TABLE_SIZE
  rw [Int.tmod_eq_emod (by omega) (by omega)]
  omega

/-- Witness of C3 on the keys `0, 1009, 2018, ..., 1009 * 1009`. -/
theorem linear_full_table_law_witness :
    (∀ i : Nat, i ≤ 1009 →
        run_linear_probing (home0_keys.take i) (i : Int)
          = some ⟨(i : Int), (i : Int) * ((i : Int) - 1) / 2, (i : Int) * ((i : Int) + 1) / 2⟩)
    ∧ run_linear_probing home0_keys 1010 = some ⟨1009, 509545, 509545⟩ :=
  linear_full_table_law home0_keys home0_keys_length home0_keys_nodup home0_keys_hash

/-! ## One call of `chaining_insert` -/

theorem chain_scan_eq (l : List Int) (key : Int) : chain_scan l key = decide (key ∈ l) := by
  induction l with
  | nil => simp [chain_scan]
  | cons a l ih =>
    by_cases h : a = key
    · simp [chain_scan, h]
    · have h' : ¬ key = a := fun e => h e.symm
      simp [chain_scan, h, h', ih]

theorem bucketAt_read (cs : List (List Int)) (b : Nat) (h : b < cs.length) :
    cs[b]? = some (bucketAt cs b) := by
  simp [bucketAt, List.getD, List.getElem?_eq_getElem h]

theorem bucketAt_set (c : List (List Int)) (b b' : Nat) (v : List Int) (h : b < c.length) :
    bucketAt (c.set b v) b' = if b' = b then v else bucketAt c b' := by
  by_cases e : b' = b
  · subst e; simp [bucketAt, List.getD, List.getElem?_set, h]
  · have e' : ¬ b = b' := fun x => e x.symm
    simp [bucketAt, List.getD, List.getElem?_set, e, e']

theorem bucketAt_create (b : Nat) : bucketAt create_chaining_table.chains b = [] := by
  unfold bucketAt create_chaining_table
  by_cases h : b < TABLE_SIZE.toNat
  · simp [List.getD, List.getElem?_replicate, h]
  · simp [List.getD, List.getElem?_replicate, h]

theorem cwf_create : CWF create_chaining_table :=
  ⟨rfl, by
    show (List.replicate TABLE_SIZE.toNat ([] : List Int)).length = 1009
    rw [List.length_replicate]; rfl⟩

theorem homeIdx_lt (key : Int) : homeIdx key < 1009 := by
  unfold homeIdx; omega

/-- The key is already in its bucket: `chaining_insert` returns `0` and leaves
the table as it is. -/
theorem chaining_insert_dup (ht : SeparateChainingHashTable) (key : Int)
    (hwf : CWF ht) (hk : 0 ≤ key) (hmem : key ∈ bucketAt ht.chains (homeIdx key)) :
    chaining_insert ht key = some (0, ht) := by
  have hlen : homeIdx key < ht.chains.length := by rw [hwf.2]; exact homeIdx_lt _
  unfold chaining_insert
  simp only [hash1_nonneg key hk, readAt_nat]
  rw [show key.toNat % 1009 = homeIdx key from rfl, bucketAt_read _ _ hlen]
  simp [chain_scan_eq, hmem]

/-- The key is not in its bucket: `chaining_insert` returns `1`, prepends the key
to the bucket, and counts one collision when the bucket was not empty. -/
theorem chaining_insert_new (ht : SeparateChainingHashTable) (key : Int)
    (hwf : CWF ht) (hk : 0 ≤ key) (hmem : key ∉ bucketAt ht.chains (homeIdx key)) :
    chaining_insert ht key
      = some (1, { ht with
          chains := ht.chains.set (homeIdx key) (key :: bucketAt ht.chains (homeIdx key))
          count := ht.count + 1
          collisions :=
            ht.collisions + (if bucketAt ht.chains (homeIdx key) = [] then 0 else 1) }) := by
  have hlen : homeIdx key < ht.chains.length := by rw [hwf.2]; exact homeIdx_lt _
  unfold chaining_insert
  simp only [hash1_nonneg key hk, readAt_nat, Int.toNat_ofNat]
  rw [show key.toNat % 1009 = homeIdx key from rfl, bucketAt_read _ _ hlen]
  by_cases he : bucketAt ht.chains (homeIdx key) = []
  · simp [chain_scan_eq, hmem, he]
  · simp [chain_scan_eq, hmem, he]

/-! ## Batches of `chaining_insert` -/

theorem chaining_final_of_length (ks : List Int) (n : Nat) (h : ks.length = n) :
    chaining_final ks (n : Int) = chaining_feed ks create_chaining_table ⟨0, 0, 0⟩ := by
  subst h
  exact chaining_final_length ks

theorem run_separate_chaining_of_feed (ks : List Int) (n : Nat) (h : ks.length = n)
    (ht : SeparateChainingHashTable) (st : Stats)
    (hf : chaining_feed ks create_chaining_table ⟨0, 0, 0⟩ = some (ht, st)) :
    run_separate_chaining ks (n : Int)
      = some { st with total_collisions := ht.collisions, total_probes := 0 } := by
  unfold run_separate_chaining
  rw [chaining_final_of_length ks n h, hf]

/-- What one call of `chaining_insert` with a non-negative key does to a
well-formed table: buckets only grow, and the key is in its bucket afterwards. -/
theorem chaining_insert_step (ht : SeparateChainingHashTable) (key : Int)
    (hwf : CWF ht) (hk : 0 ≤ key) :
    ∃ res ht1, chaining_insert ht key = some (res, ht1)
      ∧ CWF ht1
      ∧ (∀ b x, x ∈ bucketAt ht.chains b → x ∈ bucketAt ht1.chains b)
      ∧ key ∈ bucketAt ht1.chains (homeIdx key) := by
  have hlen : homeIdx key < ht.chains.length := by rw [hwf.2]; exact homeIdx_lt _
  by_cases hmem : key ∈ bucketAt ht.chains (homeIdx key)
  · exact ⟨_, _, chaining_insert_dup ht key hwf hk hmem, hwf, fun _ _ h => h, hmem⟩
  · refine ⟨_, _, chaining_insert_new ht key hwf hk hmem,
      ⟨hwf.1, by simp only [List.length_set]; exact hwf.2⟩, ?_, ?_⟩
    · intro b x hx
      simp only [bucketAt_set _ _ _ _ hlen]
      split_ifs with e
      · subst e; exact List.mem_cons_of_mem _ hx
      · exact hx
    · simp only [bucketAt_set _ _ _ _ hlen, if_true]
      exact List.mem_cons_self _ _

/-- Any batch of non-negative keys runs to its end; afterwards every key of the
batch is in its bucket. -/
theorem chaining_feed_inv :
    ∀ (ks : List Int) (ht : SeparateChainingHashTable) (st : Stats),
      CWF ht → (∀ k ∈ ks, 0 ≤ k) →
      ∃ ht1 st1, chaining_feed ks ht st = some (ht1, st1)
        ∧ CWF ht1
        ∧ (∀ b x, x ∈ bucketAt ht.chains b → x ∈ bucketAt ht1.chains b)
        ∧ (∀ k ∈ ks, k ∈ bucketAt ht1.chains (homeIdx k)) := by
  intro ks
  induction ks with
  | nil =>
    intro ht st hwf _
    exact ⟨ht, st, rfl, hwf, fun _ _ h => h, fun _ h => absurd h (List.not_mem_nil _)⟩
  | cons k ks ih =>
    intro ht st hwf hnn
    obtain ⟨res, ht1, h1, hwf1, hmono1, hin1⟩ :=
      chaining_insert_step ht k hwf (hnn k (List.mem_cons_self _ _))
    obtain ⟨ht2, st2, h2, hwf2, hmono2, hin2⟩ :=
      ih ht1 (bump res st) hwf1 (fun x hx => hnn x (List.mem_cons_of_mem _ hx))
    refine ⟨ht2, st2, ?_, hwf2, fun b x hx => hmono2 b x (hmono1 b x hx), ?_⟩
    · simp only [chaining_feed, h1]; exact h2
    · intro x hx
      rcases List.mem_cons.1 hx with e | e
      · rw [e]; exact hmono2 _ _ hin1
      · exact hin2 x e

/-- Pairwise-distinct non-negative keys, none of them in its bucket yet, are all
accepted, however many they are. -/
theorem chaining_feed_distinct :
    ∀ (ks : List Int) (ht : SeparateChainingHashTable) (st : Stats),
      CWF ht → (∀ k ∈ ks, 0 ≤ k) → ks.Nodup →
      (∀ k ∈ ks, k ∉ bucketAt ht.chains (homeIdx k)) →
      ∃ ht1 st1, chaining_feed ks ht st = some (ht1, st1)
        ∧ st1.total_inserts = st.total_inserts + ks.length := by
  intro ks
  induction ks with
  | nil =>
    intro ht st _ _ _ _
    exact ⟨ht, st, rfl, by simp⟩
  | cons k ks ih =>
    intro ht st hwf hnn hnd hfresh
    have hk : 0 ≤ k := hnn k (List.mem_cons_self _ _)
    have hlen : homeIdx k < ht.chains.length := by rw [hwf.2]; exact homeIdx_lt _
    have h1 := chaining_insert_new ht k hwf hk (hfresh k (List.mem_cons_self _ _))
    have hnd' := List.nodup_cons.1 hnd
    obtain ⟨ht2, st2, h2, hst2⟩ := ih _ (bump 1 st)
      (⟨hwf.1, by simp only [List.length_set]; exact hwf.2⟩ :
        CWF { ht with
          chains := ht.chains.set (homeIdx k) (k :: bucketAt ht.chains (homeIdx k))
          count := ht.count + 1
          collisions := ht.collisions + (if bucketAt ht.chains (homeIdx k) = [] then 0 else 1) })
      (fun x hx => hnn x (List.mem_cons_of_mem _ hx)) hnd'.2
      (by
        intro x hx
        simp only [bucketAt_set _ _ _ _ hlen]
        split_ifs with e
        · intro hmem
          rcases List.mem_cons.1 hmem with e1 | e1
          · rw [e1] at hx; exact hnd'.1 hx
          · rw [← e] at e1
            exact hfresh x (List.mem_cons_of_mem _ hx) e1
        · exact hfresh x (List.mem_cons_of_mem _ hx))
    refine ⟨ht2, st2, ?_, ?_⟩
    · simp only [chaining_feed, h1]; exact h2
    · rw [hst2, bump_inserts]
      simp only [if_true, List.length_cons]
      push_cast; ring

/-- Pairwise-distinct keys of one bucket `b` that is not empty and holds none of
them: each is accepted and each counts one collision. -/
theorem chaining_feed_same (b : Nat) :
    ∀ (ks : List Int) (ht : SeparateChainingHashTable) (st : Stats),
      CWF ht → (∀ k ∈ ks, 0 ≤ k ∧ homeIdx k = b) → ks.Nodup →
      (∀ k ∈ ks, k ∉ bucketAt ht.chains b) → bucketAt ht.chains b ≠ [] →
      ∃ ht1 st1, chaining_feed ks ht st = some (ht1, st1)
        ∧ st1.total_inserts = st.total_inserts + ks.length
        ∧ ht1.collisions = ht.collisions + ks.length := by
  intro ks
  induction ks with
  | nil =>
    intro ht st _ _ _ _ _
    exact ⟨ht, st, rfl, by simp, by simp⟩
  | cons k ks ih =>
    intro ht st hwf hb hnd hfresh hne
    obtain ⟨hk, hkb⟩ := hb k (List.mem_cons_self _ _)
    have hlen : b < ht.chains.length := by rw [hwf.2, ← hkb]; exact homeIdx_lt _
    have h1 := chaining_insert_new ht k hwf hk
      (by rw [hkb]; exact hfresh k (List.mem_cons_self _ _))
    rw [hkb] at h1
    simp only [hne, if_false] at h1
    have hnd' := List.nodup_cons.1 hnd
    obtain ⟨ht2, st2, h2, hst2, hc2⟩ := ih
      { ht with chains := ht.chains.set b (k :: bucketAt ht.chains b)
                count := ht.count + 1
                collisions := ht.collisions + 1 }
      (bump 1 st)
      ⟨hwf.1, by simp only [List.length_set]; exact hwf.2⟩
      (fun x hx => hb x (List.mem_cons_of_mem _ hx)) hnd'.2
      (by
        intro x hx
        simp only [bucketAt_set _ _ _ _ hlen, if_true]
        intro hmem
        rcases List.mem_cons.1 hmem with e1 | e1
        · rw [e1] at hx; exact hnd'.1 hx
        · exact hfresh x (List.mem_cons_of_mem _ hx) e1)
      (by simp only [bucketAt_set _ _ _ _ hlen, if_true]; exact List.cons_ne_nil _ _)
    refine ⟨ht2, st2, ?_, ?_, ?_⟩
    · simp only [chaining_feed, h1]; exact h2
    · rw [hst2, bump_inserts]
      simp only [if_true, List.length_cons]
      push_cast; ring
    · rw [hc2]
      simp only [List.length_cons]
      push_cast; ring

/-! ## Settled claims: separate chaining and the dispatcher -/

theorem run_hash_test_linear (keys : List Int) (n : Int) :
    run_hash_test keys n LINEAR_PROBING = run_linear_probing keys n := by
  simp [run_hash_test]

theorem run_hash_test_chaining (keys : List Int) (n : Int) :
    run_hash_test keys n SEPARATE_CHAINING = run_separate_chaining keys n := by
  simp [run_hash_test, LINEAR_PROBING, SEPARATE_CHAINING]

/-- C2: for every sequence of pairwise-distinct non-negative keys, of any length
`n` (no bound relative to `TABLE_SIZE`), `run_hash_test` with method
`SEPARATE_CHAINING` returns, and `total_inserts` is `n`. -/
theorem chaining_distinct_keys_all_inserted (ks : List Int) (hnn : ∀ k ∈ ks, 0 ≤ k)
    (hnd : ks.Nodup) :
    ∃ s, run_hash_test ks (ks.length : Int) SEPARATE_CHAINING = some s
      ∧ s.total_inserts = (ks.length : Int) := by
  obtain ⟨ht1, st1, h1, hst1⟩ :=
    chaining_feed_distinct ks create_chaining_table ⟨0, 0, 0⟩ cwf_create hnn hnd
      (fun k _ => by rw [bucketAt_create]; exact List.not_mem_nil _)
  have hr := run_separate_chaining_of_feed ks ks.length rfl _ _ h1
  exact ⟨_, by rw [run_hash_test_chaining]; exact hr, by simpa using hst1⟩

/-- Witness of C2 on 1010 keys, one more than `TABLE_SIZE`. -/
theorem chaining_distinct_keys_all_inserted_witness :
    ∃ s, run_hash_test home0_keys (home0_keys.length : Int) SEPARATE_CHAINING = some s
      ∧ s.total_inserts = (home0_keys.length : Int) :=
  chaining_distinct_keys_all_inserted home0_keys (fun k hk => (home0_keys_hash k hk).1)
    home0_keys_nodup

/-- C5: duplicate law for separate chaining. For every sequence `ks` of
non-negative keys and every key `k` occurring in `ks`, the run on `ks` followed
by `k` returns the same `total_inserts` and the same `total_collisions` as the
run on `ks`. -/
theorem chaining_duplicate_law (ks : List Int) (k : Int) (hnn : ∀ x ∈ ks, 0 ≤ x)
    (hk : k ∈ ks) :
    ∃ s s1, run_separate_chaining ks (ks.length : Int) = some s
      ∧ run_separate_chaining (ks ++ [k]) ((ks ++ [k]).length : Int) = some s1
      ∧ s1.total_inserts = s.total_inserts
      ∧ s1.total_collisions = s.total_collisions := by
  obtain ⟨ht1, st1, h1, hwf1, _, hin1⟩ :=
    chaining_feed_inv ks create_chaining_table ⟨0, 0, 0⟩ cwf_create hnn
  have h2 := chaining_insert_dup ht1 k hwf1 (hnn k hk) (hin1 k hk)
  have hF : chaining_feed (ks ++ [k]) create_chaining_table ⟨0, 0, 0⟩
      = some (ht1, bump 0 st1) := by
    rw [chaining_feed_append, h1]
    simp only [Option.some_bind, chaining_feed, h2]
  refine ⟨_, _, run_separate_chaining_of_feed ks ks.length rfl _ _ h1,
    run_separate_chaining_of_feed (ks ++ [k]) (ks ++ [k]).length rfl _ _ hF, ?_, ?_⟩
  · simp [bump]
  · rfl

/-- Witness of C5: `ks = [5, 1014]`, `k = 5`. -/
theorem chaining_duplicate_law_witness :
    ∃ s s1, run_separate_chaining [5, 1014] (([5, 1014] : List Int).length : Int) = some s
      ∧ run_separate_chaining ([5, 1014] ++ [5])
          ((([5, 1014] : List Int) ++ [5]).length : Int) = some s1
      ∧ s1.total_inserts = s.total_inserts
      ∧ s1.total_collisions = s.total_collisions :=
  chaining_duplicate_law [5, 1014] 5 (by decide) (by decide)

/-- C8: for every non-empty sequence of `k` pairwise-distinct non-negative keys
that all hash to the same bucket `b`, `run_hash_test` with method
`SEPARATE_CHAINING` returns `total_inserts = k`, `total_collisions = k - 1` and
`total_probes = 0`. -/
theorem chaining_same_bucket (ks : List Int) (b : Int) (hne : ks ≠ [])
    (hnn : ∀ k ∈ ks, 0 ≤ k) (hnd : ks.Nodup) (hb : ∀ k ∈ ks, hash1 k = b) :
    run_hash_test ks (ks.length : Int) SEPARATE_CHAINING
      = some ⟨(ks.length : Int), (ks.length : Int) - 1, 0⟩ := by
  obtain ⟨k, rest, rfl⟩ : ∃ k rest, ks = k :: rest := by
    cases ks with
    | nil => exact absurd rfl hne
    | cons k rest => exact ⟨k, rest, rfl⟩
  have hk : 0 ≤ k := hnn k (List.mem_cons_self _ _)
  have hhome : ∀ x ∈ k :: rest, homeIdx x = homeIdx k := by
    intro x hx
    have e1 := hash1_nonneg x (hnn x hx)
    have e2 := hash1_nonneg k hk
    rw [hb x hx] at e1
    rw [hb k (List.mem_cons_self _ _)] at e2
    unfold homeIdx
    omega
  have hlen : homeIdx k < create_chaining_table.chains.length := by
    rw [cwf_create.2]; exact homeIdx_lt _
  have h1 := chaining_insert_new create_chaining_table k cwf_create hk
    (by rw [bucketAt_create]; exact List.not_mem_nil _)
  simp only [bucketAt_create, if_true] at h1
  have hnd' := List.nodup_cons.1 hnd
  obtain ⟨ht2, st2, h2, hst2, hc2⟩ := chaining_feed_same (homeIdx k) rest
    { create_chaining_table with
        chains := create_chaining_table.chains.set (homeIdx k) [k]
        count := create_chaining_table.count + 1
        collisions := create_chaining_table.collisions + 0 }
    (bump 1 ⟨0, 0, 0⟩)
    ⟨cwf_create.1, by simp only [List.length_set]; exact cwf_create.2⟩
    (fun x hx => ⟨hnn x (List.mem_cons_of_mem _ hx), hhome x (List.mem_cons_of_mem _ hx)⟩)
    hnd'.2
    (by
      intro x hx
      simp only [bucketAt_set _ _ _ _ hlen, if_true, List.mem_singleton]
      intro e
      rw [e] at hx
      exact hnd'.1 hx)
    (by simp only [bucketAt_set _ _ _ _ hlen, if_true]; exact List.cons_ne_nil _ _)
  have hF : chaining_feed (k :: rest) create_chaining_table ⟨0, 0, 0⟩ = some (ht2, st2) := by
    simp only [chaining_feed, h1]; exact h2
  have hr := run_separate_chaining_of_feed (k :: rest) (k :: rest).length rfl _ _ hF
  rw [run_hash_test_chaining, hr, hc2]
  rw [bump_inserts] at hst2
  simp only [if_true] at hst2
  have e1 : st2.total_inserts = ((k :: rest).length : Int) := by
    rw [hst2, List.length_cons]; push_cast; ring
  have e2 : create_chaining_table.collisions + 0 + (rest.length : Int)
      = ((k :: rest).length : Int) - 1 := by
    simp only [create_chaining_table, List.length_cons]; push_cast; ring
  simp only [e1, e2]

/-- Witness of C8: the keys `[5, 1014, 2023]` give `(3, 2, 0)`. -/
theorem chaining_same_bucket_witness :
    run_hash_test [5, 1014, 2023] (([5, 1014, 2023] : List Int).length : Int)
        SEPARATE_CHAINING
      = some ⟨(([5, 1014, 2023] : List Int).length : Int),
          (([5, 1014, 2023] : List Int).length : Int) - 1, 0⟩ :=
  chaining_same_bucket [5, 1014, 2023] 5 (by decide) (by decide) (by decide) (by decide)

/-- C10: `run_hash_test` with a method selector other than 1 and 2 returns the
record `{0, 0, 0}` for every key sequence and every `n`, without touching a
table; with selector 1 it returns the result of `run_linear_probing` and with
selector 2 the result of `run_separate_chaining`. -/
theorem run_hash_test_dispatch (keys : List Int) (n : Int) (collision_method : Int) :
    (collision_method ≠ 1 → collision_method ≠ 2 →
        run_hash_test keys n collision_method = some ⟨0, 0, 0⟩)
    ∧ run_hash_test keys n 1 = run_linear_probing keys n
    ∧ run_hash_test keys n 2 = run_separate_chaining keys n := by
  refine ⟨?_, ?_, ?_⟩
  · intro h1 h2
    simp only [run_hash_test, LINEAR_PROBING, SEPARATE_CHAINING]
    rw [if_neg h1, if_neg h2]
  · exact run_hash_test_linear keys n
  · exact run_hash_test_chaining keys n

/-- Witness of C10: selector `0` on the keys `[5, 1014]` with `n = 7`. -/
theorem run_hash_test_dispatch_witness :
    run_hash_test [5, 1014] 7 0 = some ⟨0, 0, 0⟩ :=
  (run_hash_test_dispatch [5, 1014] 7 0).1 (by decide) (by decide)

/-! ## Reachable probing tables -/

theorem lreach_linv (ht : LinearProbingHashTable) (h : LReach ht) : LInv ht := by
  induction h with
  | empty => exact linv_create
  | insert ht key res ht1 _ hk hins ih =>
    obtain ⟨res', ht1', h1, hinv1, _⟩ := linear_insert_step ht key ih hk
    rw [hins] at h1
    have e : ht1 = ht1' := (Prod.mk.inj (Option.some.inj h1)).2
    rw [e]; exact hinv1

theorem linear_insert_table_with_5 :
    linear_insert create_linear_table 5 = some (1, table_with_5) := by
  decide

theorem lreach_table_with_5 : LReach table_with_5 :=
  LReach.insert create_linear_table 5 1 table_with_5 LReach.empty (by decide)
    linear_insert_table_with_5

theorem mem_iff_slotAt (t : List Int) (x : Int) :
    x ∈ t ↔ ∃ i, i < t.length ∧ slotAt t i = x := by
  constructor
  · intro h
    obtain ⟨i, hi, e⟩ := List.getElem_of_mem h
    refine ⟨i, hi, ?_⟩
    rw [← e]
    simp [slotAt, List.getD, List.getElem?_eq_getElem hi]
  · rintro ⟨i, hi, e⟩
    rw [← e]
    have : slotAt t i = t[i] := by simp [slotAt, List.getD, List.getElem?_eq_getElem hi]
    rw [this]
    exact List.getElem_mem hi

theorem mem_table_iff (ht : LinearProbingHashTable) (hwf : LWF ht) (x : Int) :
    x ∈ ht.table ↔ ∃ i, i < 1009 ∧ slotAt ht.table i = x := by
  rw [mem_iff_slotAt, hwf.2]

/-- C11: in every probing table reachable from the empty one by calls of
`linear_insert` with non-negative keys, no stored key occupies two slots, and
`linear_insert` of a key that is stored returns `0` (Duplicate) and leaves the
slot array as it is. -/
theorem linear_key_stored_once (ht : LinearProbingHashTable) (hr : LReach ht) :
    (∀ i i', i < 1009 → i' < 1009 → slotAt ht.table i ≠ -1 →
        slotAt ht.table i = slotAt ht.table i' → i = i')
    ∧ (∀ key, 0 ≤ key → key ∈ ht.table →
        ∃ ht1, linear_insert ht key = some (0, ht1) ∧ ht1.table = ht.table
          ∧ ht1.count = ht.count) := by
  have hinv := lreach_linv ht hr
  refine ⟨hinv.uniq, ?_⟩
  intro key hk hmem
  obtain ⟨i, hi, hik⟩ := (mem_table_iff ht hinv.wf key).1 hmem
  obtain ⟨j, _, h⟩ := linear_insert_stored ht key i hinv hk hi hik
  exact ⟨_, h, rfl, rfl⟩

/-- Witness of C11 on the table that holds the key `5`. -/
theorem linear_key_stored_once_witness :
    (∀ i i', i < 1009 → i' < 1009 → slotAt table_with_5.table i ≠ -1 →
        slotAt table_with_5.table i = slotAt table_with_5.table i' → i = i')
    ∧ (∀ key, 0 ≤ key → key ∈ table_with_5.table →
        ∃ ht1, linear_insert table_with_5 key = some (0, ht1)
          ∧ ht1.table = table_with_5.table ∧ ht1.count = table_with_5.count) :=
  linear_key_stored_once table_with_5 lreach_table_with_5

theorem occupied_lt_of_empty (t : List Int) (i : Nat) (hi : i < t.length)
    (he : slotAt t i = -1) : occupied t < t.length := by
  by_contra hge
  have heq : occupied t = t.length := le_antisymm (occupied_le t) (not_lt.1 hge)
  unfold occupied at heq
  have hall := (List.countP_eq_length (p := fun v => decide (v ≠ -1)) (l := t)).1 heq
  have hmem : slotAt t i ∈ t := (mem_iff_slotAt t _).2 ⟨i, hi, rfl⟩
  have := hall _ hmem
  rw [he] at this
  simp at this

theorem hash1_neg (key : Int) (hk : key < 0) : hash1 key = -((-key) % 1009) := by
  obtain ⟨n, rfl⟩ := Int.eq_negSucc_of_lt_zero hk
  have h : hash1 (Int.negSucc n) = -(((n + 1) % 1009 : Nat) : Int) := rfl
  rw [h, Int.negSucc_eq]
  omega

/-- C13: `hash1 key` is `key` modulo 1009 with the truncating remainder of C. For
`key ≥ 0` it is the mathematical `key mod 1009`, lies in `[0, 1009)` and is a
valid index of the slot array; for a negative `key` that is not a multiple of
1009 it lies in `(-1009, 0)` and is an index of no array; `hash1 (-5) = -5`. -/
theorem hash1_truncating_remainder (key : Int) :
    hash1 key = Int.tmod key 1009
    ∧ (0 ≤ key → hash1 key = key % 1009 ∧ 0 ≤ hash1 key ∧ hash1 key < 1009
        ∧ readAt create_linear_table.table (hash1 key) = some (-1))
    ∧ (key < 0 → ¬ (1009 ∣ key) → -1009 < hash1 key ∧ hash1 key < 0
        ∧ ∀ t : List Int, readAt t (hash1 key) = none)
    ∧ hash1 (-5) = -5 := by
  refine ⟨rfl, ?_, ?_, by decide⟩
  · intro hk
    have h := hash1_nonneg key hk
    refine ⟨by rw [h]; omega, by rw [h]; omega, by rw [h]; omega, ?_⟩
    rw [h, readAt_nat, slotAt_read _ _ (by rw [linv_create.wf.2]; omega), slotAt_create]
  · intro hk hnd
    have h := hash1_neg key hk
    have hne : (-key) % 1009 ≠ 0 := by
      intro h0
      exact hnd (by omega)
    refine ⟨by rw [h]; omega, by rw [h]; omega, ?_⟩
    intro t
    unfold readAt
    rw [if_neg (by rw [h]; omega)]

/-- Witness of C13: the keys `2023` and `-5`. -/
theorem hash1_truncating_remainder_witness :
    (hash1 2023 = 2023 % 1009 ∧ 0 ≤ hash1 2023 ∧ hash1 2023 < 1009
        ∧ readAt create_linear_table.table (hash1 2023) = some (-1))
    ∧ (-1009 < hash1 (-5) ∧ hash1 (-5) < 0 ∧ ∀ t : List Int, readAt t (hash1 (-5)) = none) :=
  ⟨(hash1_truncating_remainder 2023).2.1 (by decide),
    (hash1_truncating_remainder (-5)).2.2.1 (by decide) (by decide)⟩

theorem homeIdx_eq_hash (key : Int) (hk : 0 ≤ key) : (hash1 key).toNat = homeIdx key := by
  rw [hash1_nonneg key hk]
  unfold homeIdx
  omega

/-- C17: for every well-formed chaining table and every non-negative key, with
bucket index `hash1 key`: if the key is in that bucket, `chaining_insert` returns
`0` (Duplicate) and the table is unchanged; otherwise it returns `1` (Inserted),
the bucket becomes the key followed by its old content, every other bucket is
unchanged, `count` grows by 1, and `collisions` grows by 1 if the bucket was not
empty and by 0 if it was, whatever its length. -/
theorem chaining_insert_effect (ht : SeparateChainingHashTable) (key : Int)
    (hwf : CWF ht) (hk : 0 ≤ key) :
    (key ∈ bucketAt ht.chains (hash1 key).toNat → chaining_insert ht key = some (0, ht))
    ∧ (key ∉ bucketAt ht.chains (hash1 key).toNat →
        ∃ ht1, chaining_insert ht key = some (1, ht1)
          ∧ bucketAt ht1.chains (hash1 key).toNat
              = key :: bucketAt ht.chains (hash1 key).toNat
          ∧ (∀ b, b ≠ (hash1 key).toNat → bucketAt ht1.chains b = bucketAt ht.chains b)
          ∧ ht1.chains.length = ht.chains.length
          ∧ ht1.size = ht.size
          ∧ ht1.count = ht.count + 1
          ∧ ht1.collisions
              = ht.collisions
                + (if bucketAt ht.chains (hash1 key).toNat = [] then 0 else 1)) := by
  rw [homeIdx_eq_hash key hk]
  have hlen : homeIdx key < ht.chains.length := by rw [hwf.2]; exact homeIdx_lt _
  constructor
  · exact chaining_insert_dup ht key hwf hk
  · intro hmem
    refine ⟨_, chaining_insert_new ht key hwf hk hmem, ?_, ?_, ?_, rfl, rfl, rfl⟩
    · simp only [bucketAt_set _ _ _ _ hlen, if_true]
    · intro b hb
      simp only [bucketAt_set _ _ _ _ hlen, hb, if_false]
    · simp only [List.length_set]

theorem cwf_chains_with_5 : CWF chains_with_5 :=
  ⟨rfl, by
    show (create_chaining_table.chains.set 5 [5]).length = 1009
    rw [List.length_set]; exact cwf_create.2⟩

/-- Witness of C17: the key `5`, in the table that holds it and in the empty
table. -/
theorem chaining_insert_effect_witness :
    chaining_insert chains_with_5 5 = some (0, chains_with_5)
    ∧ ∃ ht1, chaining_insert create_chaining_table 5 = some (1, ht1)
        ∧ bucketAt ht1.chains (hash1 5).toNat
            = 5 :: bucketAt create_chaining_table.chains (hash1 5).toNat
        ∧ (∀ b, b ≠ (hash1 5).toNat →
              bucketAt ht1.chains b = bucketAt create_chaining_table.chains b)
        ∧ ht1.chains.length = create_chaining_table.chains.length
        ∧ ht1.size = create_chaining_table.size
        ∧ ht1.count = create_chaining_table.count + 1
        ∧ ht1.collisions
            = create_chaining_table.collisions
              + (if bucketAt create_chaining_table.chains (hash1 5).toNat = [] then 0 else 1) :=
  ⟨(chaining_insert_effect chains_with_5 5 cwf_chains_with_5 (by decide)).1 (by decide),
    (chaining_insert_effect create_chaining_table 5 cwf_create (by decide)).2 (by decide)⟩

/-! ## Counting distinct keys -/

theorem card_snoc_mem (l : List Int) (a : Int) (h : a ∈ l) :
    (l ++ [a]).toFinset.card = l.toFinset.card := by
  have : (l ++ [a]).toFinset = l.toFinset := by
    ext x
    simp only [List.mem_toFinset, List.mem_append, List.mem_singleton]
    constructor
    · rintro (hx | hx)
      · exact hx
      · rw [hx]; exact h
    · intro hx; exact Or.inl hx
  rw [this]

theorem card_snoc_not_mem (l : List Int) (a : Int) (h : a ∉ l) :
    (l ++ [a]).toFinset.card = l.toFinset.card + 1 := by
  have : (l ++ [a]).toFinset = insert a l.toFinset := by
    ext x
    simp only [List.mem_toFinset, List.mem_append, List.mem_singleton, Finset.mem_insert]
    tauto
  rw [this, Finset.card_insert_of_not_mem (by simpa using h)]

theorem card_snoc_le (l : List Int) (a : Int) :
    l.toFinset.card ≤ (l ++ [a]).toFinset.card := by
  by_cases h : a ∈ l
  · rw [card_snoc_mem l a h]
  · rw [card_snoc_not_mem l a h]; omega

theorem linear_feed_snoc (l : List Int) (a : Int) (ht0 ht : LinearProbingHashTable)
    (st0 st : Stats) (res : Int) (ht1 : LinearProbingHashTable)
    (h : linear_feed l ht0 st0 = some (ht, st)) (h1 : linear_insert ht a = some (res, ht1)) :
    linear_feed (l ++ [a]) ht0 st0 = some (ht1, bump res st) := by
  rw [linear_feed_append, h]
  simp only [Option.some_bind, linear_feed, h1]

/-- The table left by any batch of non-negative keys fed to the empty table:
either every key of the batch is stored, `count` is the number of distinct keys
and no call returned `-1` (so `probes = collisions + length`), or the table is
full and the batch has more than 1009 distinct keys. -/
theorem linear_feed_count (ks : List Int) (hnn : ∀ k ∈ ks, 0 ≤ k) :
    ∃ ht st, linear_feed ks create_linear_table ⟨0, 0, 0⟩ = some (ht, st)
      ∧ LInv ht
      ∧ st.total_inserts = ht.count
      ∧ (∀ i, i < 1009 → slotAt ht.table i ≠ -1 → slotAt ht.table i ∈ ks)
      ∧ (((ks.toFinset.card : Int) = ht.count
            ∧ (∀ x ∈ ks, ∃ i, i < 1009 ∧ slotAt ht.table i = x)
            ∧ ht.probes = ht.collisions + ks.length)
          ∨ (ht.count = 1009 ∧ 1009 < ks.toFinset.card)) := by
  induction ks using List.reverseRecOn with
  | nil =>
    refine ⟨create_linear_table, ⟨0, 0, 0⟩, rfl, linv_create, rfl, ?_,
      Or.inl ⟨rfl, ?_, rfl⟩⟩
    · intro i _ h; exact absurd (slotAt_create i) h
    · intro x hx; exact absurd hx (List.not_mem_nil _)
  | append_singleton l a ih =>
    have ha : 0 ≤ a := hnn a (by simp)
    obtain ⟨ht, st, hf, hinv, hst, hsub, hAB⟩ :=
      ih (fun k hk => hnn k (List.mem_append_left _ hk))
    have hlen := hinv.wf.2
    rcases linear_insert_cases ht a hinv.wf ha with
      ⟨j, hj, hocc, he, h1⟩ | ⟨j, hj, _, he, h1⟩ | ⟨hocc, h1⟩
    · -- inserted
      have hpos : probeIdx a j < ht.table.length := by rw [hlen]; exact probeIdx_lt _ _
      have hfresh := not_stored_of_empty ht a j hinv ha hj hocc he
      refine ⟨_, _, linear_feed_snoc l a _ _ _ _ _ _ hf h1,
        linv_inserted ht a j _ _ hinv ha hj hocc he, ?_, ?_, ?_⟩
      · rw [bump_inserts, hst]; simp
      · intro i hi
        simp only [slotAt_set _ _ _ _ hpos]
        split_ifs with e
        · intro _; simp
        · intro hne; exact List.mem_append_left _ (hsub i hi hne)
      · rcases hAB with ⟨hcard, hall, hpr⟩ | ⟨hfull, _⟩
        · have hal : a ∉ l := by
            intro hm
            obtain ⟨i, hi, hia⟩ := hall a hm
            exact hfresh i hi hia
          refine Or.inl ⟨?_, ?_, ?_⟩
          · rw [card_snoc_not_mem l a hal]
            simp only
            push_cast
            omega
          · intro x hx
            rcases List.mem_append.1 hx with hx | hx
            · obtain ⟨i, hi, hix⟩ := hall x hx
              refine ⟨i, hi, ?_⟩
              have hne : i ≠ probeIdx a j := by
                intro e
                rw [e, he] at hix
                have := hnn x (List.mem_append_left _ hx)
                omega
              rw [slotAt_set_ne _ _ _ _ hne]; exact hix
            · rw [List.mem_singleton.1 hx]
              exact ⟨probeIdx a j, probeIdx_lt _ _, slotAt_set_self _ _ _ hpos⟩
          · simp only [List.length_append, List.length_singleton]
            push_cast
            omega
        · have := occupied_lt_of_empty ht.table (probeIdx a j) hpos he
          have hce := hinv.count_eq
          omega
    · -- duplicate
      have hne : slotAt ht.table (probeIdx a j) ≠ -1 := by rw [he]; omega
      have hal : a ∈ l := by
        have := hsub _ (probeIdx_lt a j) hne
        rw [he] at this
        exact this
      refine ⟨_, _, linear_feed_snoc l a _ _ _ _ _ _ hf h1,
        linv_congr _ _ hinv rfl rfl rfl, ?_, ?_, ?_⟩
      · rw [bump_inserts, hst]; simp
      · intro i hi hne'
        exact List.mem_append_left _ (hsub i hi hne')
      · rcases hAB with ⟨hcard, hall, hpr⟩ | ⟨hfull, hbig⟩
        · refine Or.inl ⟨?_, ?_, ?_⟩
          · rw [card_snoc_mem l a hal]; exact hcard
          · intro x hx
            rcases List.mem_append.1 hx with hx | hx
            · exact hall x hx
            · rw [List.mem_singleton.1 hx]
              exact ⟨probeIdx a j, probeIdx_lt _ _, he⟩
          · simp only [List.length_append, List.length_singleton]
            push_cast
            omega
        · exact Or.inr ⟨hfull, lt_of_lt_of_le hbig (card_snoc_le l a)⟩
    · -- full table
      have hfullocc : occupied ht.table = ht.table.length := occupied_full ht.table (by
        intro i hi
        obtain ⟨d, hd, hdi⟩ := probeIdx_surj a i (by omega)
        rw [← hdi]; exact (hocc d hd).1)
      have hcnt : ht.count = 1009 := by
        rw [hinv.count_eq, hfullocc, hlen]; rfl
      refine ⟨_, _, linear_feed_snoc l a _ _ _ _ _ _ hf h1,
        linv_congr _ _ hinv rfl rfl rfl, ?_, ?_, ?_⟩
      · rw [bump_inserts, hst]; simp
      · intro i hi hne'
        exact List.mem_append_left _ (hsub i hi hne')
      · refine Or.inr ⟨hcnt, ?_⟩
        rcases hAB with ⟨hcard, hall, _⟩ | ⟨_, hbig⟩
        · have hal : a ∉ l := by
            intro hm
            obtain ⟨i, hi, hia⟩ := hall a hm
            obtain ⟨d, hd, hdi⟩ := probeIdx_surj a i hi
            have := (hocc d hd).2
            rw [hdi] at this
            exact this hia
          rw [card_snoc_not_mem l a hal]
          omega
        · exact lt_of_lt_of_le hbig (card_snoc_le l a)

theorem linear_final_take (ks : List Int) (n : Int) (hn : n ≤ ks.length) :
    linear_final ks n = linear_feed (ks.take n.toNat) create_linear_table ⟨0, 0, 0⟩ := by
  unfold linear_final
  exact linear_batch_eq_feed ks n.toNat _ _ (by omega)

/-- C18: for every sequence of keys and every `n` not larger than its length,
if the first `n` keys are non-negative then `run_linear_probing` returns and
`total_inserts = min d TABLE_SIZE`, where `d` is the number of distinct values
among the first `n` keys. -/
theorem linear_total_inserts_eq_min (ks : List Int) (n : Int)
    (hnn : ∀ k ∈ ks.take n.toNat, 0 ≤ k) (hn : n ≤ ks.length) :
    ∃ s, run_linear_probing ks n = some s
      ∧ s.total_inserts = min ((ks.take n.toNat).dedup.length : Int) TABLE_SIZE := by
  obtain ⟨ht, st, hf, hinv, hst, _, hAB⟩ := linear_feed_count (ks.take n.toNat) hnn
  refine ⟨_, by unfold run_linear_probing; rw [linear_final_take ks n hn, hf], ?_⟩
  have hle : ht.count ≤ 1009 := by
    have := occupied_le ht.table
    rw [hinv.wf.2] at this
    rw [hinv.count_eq]
    omega
  rw [← List.card_toFinset]
  unfold TABLE_SIZE
  simp only
  rcases hAB with ⟨hcard, _, _⟩ | ⟨hfull, hbig⟩
  · rw [hst, hcard]
    omega
  · rw [hst, hfull]
    omega

/-- Witness of C18: the keys `[5, 1014, 5, 7]` with `n = 3`. -/
theorem linear_total_inserts_eq_min_witness :
    ∃ s, run_linear_probing [5, 1014, 5, 7] 3 = some s
      ∧ s.total_inserts
          = min (((([5, 1014, 5, 7] : List Int).take (3 : Int).toNat).dedup.length : Nat) : Int)
              TABLE_SIZE :=
  linear_total_inserts_eq_min [5, 1014, 5, 7] 3 (by decide) (by decide)

/-- C20: for every sequence of `n` non-negative keys with at most `TABLE_SIZE`
distinct values, `run_linear_probing` returns, every distinct value is accepted
and `total_probes = total_collisions + n` (no call returns TableFull, and every
other call adds one more to `probes` than to `collisions`). -/
theorem linear_probes_eq_collisions_add_n (ks : List Int) (hnn : ∀ k ∈ ks, 0 ≤ k)
    (hd : (ks.dedup.length : Int) ≤ TABLE_SIZE) :
    ∃ s, run_linear_probing ks (ks.length : Int) = some s
      ∧ s.total_inserts = (ks.dedup.length : Int)
      ∧ s.total_probes = s.total_collisions + (ks.length : Int) := by
  obtain ⟨ht, st, hf, _, hst, _, hAB⟩ := linear_feed_count ks hnn
  refine ⟨_, run_linear_probing_of_feed ks ks.length rfl _ _ hf, ?_, ?_⟩
  · rw [← List.card_toFinset]
    rcases hAB with ⟨hcard, _, _⟩ | ⟨_, hbig⟩
    · simp only
      rw [hst, hcard]
    · rw [← List.card_toFinset] at hd
      unfold TABLE_SIZE at hd
      omega
  · rcases hAB with ⟨_, _, hpr⟩ | ⟨_, hbig⟩
    · exact hpr
    · rw [← List.card_toFinset] at hd
      unfold TABLE_SIZE at hd
      omega

/-- Witness of C20: the keys `[5, 1014, 5, 2023]`. -/
theorem linear_probes_eq_collisions_add_n_witness :
    ∃ s, run_linear_probing [5, 1014, 5, 2023] (([5, 1014, 5, 2023] : List Int).length : Int)
          = some s
      ∧ s.total_inserts = ((([5, 1014, 5, 2023] : List Int).dedup.length : Nat) : Int)
      ∧ s.total_probes
          = s.total_collisions + (([5, 1014, 5, 2023] : List Int).length : Int) :=
  linear_probes_eq_collisions_add_n [5, 1014, 5, 2023] (by decide) (by decide)

theorem chaining_feed_snoc (l : List Int) (a : Int) (ht0 ht : SeparateChainingHashTable)
    (st0 st : Stats) (res : Int) (ht1 : SeparateChainingHashTable)
    (h : chaining_feed l ht0 st0 = some (ht, st))
    (h1 : chaining_insert ht a = some (res, ht1)) :
    chaining_feed (l ++ [a]) ht0 st0 = some (ht1, bump res st) := by
  rw [chaining_feed_append, h]
  simp only [Option.some_bind, chaining_feed, h1]

theorem hash1_eq_iff_homeIdx (x y : Int) (hx : 0 ≤ x) (hy : 0 ≤ y) :
    hash1 x = hash1 y ↔ homeIdx x = homeIdx y := by
  rw [hash1_nonneg x hx, hash1_nonneg y hy]
  unfold homeIdx
  omega

/-- The table left by any batch of non-negative keys fed to the empty chaining
table: the buckets hold exactly the keys of the batch, each in the bucket of its
hash; `total_inserts` is the number of distinct keys and `collisions` that
number less the number of distinct hashes. -/
theorem chaining_feed_count (ks : List Int) (hnn : ∀ k ∈ ks, 0 ≤ k) :
    ∃ ht st, chaining_feed ks create_chaining_table ⟨0, 0, 0⟩ = some (ht, st)
      ∧ CWF ht
      ∧ st.total_inserts = (ks.toFinset.card : Int)
      ∧ ht.collisions = (ks.toFinset.card : Int) - ((ks.map hash1).toFinset.card : Int)
      ∧ (∀ x ∈ ks, x ∈ bucketAt ht.chains (homeIdx x))
      ∧ (∀ b x, x ∈ bucketAt ht.chains b → x ∈ ks ∧ homeIdx x = b) := by
  induction ks using List.reverseRecOn with
  | nil =>
    refine ⟨create_chaining_table, ⟨0, 0, 0⟩, rfl, cwf_create, rfl, rfl, ?_, ?_⟩
    · intro x hx; exact absurd hx (List.not_mem_nil _)
    · intro b x hx
      rw [bucketAt_create] at hx
      exact absurd hx (List.not_mem_nil _)
  | append_singleton l a ih =>
    have ha : 0 ≤ a := hnn a (by simp)
    have hnl : ∀ k ∈ l, 0 ≤ k := fun k hk => hnn k (List.mem_append_left _ hk)
    obtain ⟨ht, st, hf, hwf, hst, hcl, hin, hfrom⟩ := ih hnl
    have hlen : homeIdx a < ht.chains.length := by rw [hwf.2]; exact homeIdx_lt _
    have hmap : List.map hash1 (l ++ [a]) = List.map hash1 l ++ [hash1 a] := by simp
    by_cases hmem : a ∈ bucketAt ht.chains (homeIdx a)
    · have hal : a ∈ l := (hfrom _ a hmem).1
      have hhl : hash1 a ∈ List.map hash1 l := List.mem_map.2 ⟨a, hal, rfl⟩
      refine ⟨_, _, chaining_feed_snoc l a _ _ _ _ _ _ hf (chaining_insert_dup ht a hwf ha hmem),
        hwf, ?_, ?_, ?_, ?_⟩
      · rw [bump_inserts, hst, card_snoc_mem l a hal]; simp
      · rw [hcl, card_snoc_mem l a hal, hmap, card_snoc_mem _ _ hhl]
      · intro x hx
        rcases List.mem_append.1 hx with hx | hx
        · exact hin x hx
        · rw [List.mem_singleton.1 hx]; exact hmem
      · intro b x hx
        exact ⟨List.mem_append_left _ (hfrom b x hx).1, (hfrom b x hx).2⟩
    · have hal : a ∉ l := fun hm => hmem (hin a hm)
      refine ⟨_, _, chaining_feed_snoc l a _ _ _ _ _ _ hf (chaining_insert_new ht a hwf ha hmem),
        ⟨hwf.1, by simp only [List.length_set]; exact hwf.2⟩, ?_, ?_, ?_, ?_⟩
      · rw [bump_inserts, hst, card_snoc_not_mem l a hal]
        simp only [if_true]
        push_cast
        ring
      · simp only
        rw [hcl, card_snoc_not_mem l a hal, hmap]
        by_cases hb : bucketAt ht.chains (homeIdx a) = []
        · have hhl : hash1 a ∉ List.map hash1 l := by
            intro hm
            obtain ⟨x, hx, hxa⟩ := List.mem_map.1 hm
            have e := (hash1_eq_iff_homeIdx x a (hnl x hx) ha).1 hxa
            have := hin x hx
            rw [e, hb] at this
            exact absurd this (List.not_mem_nil _)
          rw [card_snoc_not_mem _ _ hhl, if_pos hb]
          push_cast
          ring
        · obtain ⟨x, hx⟩ := List.exists_mem_of_ne_nil _ hb
          have hxl := hfrom _ x hx
          have hhl : hash1 a ∈ List.map hash1 l :=
            List.mem_map.2 ⟨x, hxl.1,
              (hash1_eq_iff_homeIdx x a (hnl x hxl.1) ha).2 hxl.2⟩
          rw [card_snoc_mem _ _ hhl, if_neg hb]
          push_cast
          ring
      · intro x hx
        simp only [bucketAt_set _ _ _ _ hlen]
        rcases List.mem_append.1 hx with hx | hx
        · split_ifs with e
          · rw [← e]; exact List.mem_cons_of_mem _ (hin x hx)
          · exact hin x hx
        · rw [List.mem_singleton.1 hx]
          simp
      · intro b x
        simp only [bucketAt_set _ _ _ _ hlen]
        split_ifs with e
        · intro hx
          rcases List.mem_cons.1 hx with e1 | e1
          · rw [e1]; exact ⟨by simp, e.symm⟩
          · exact ⟨List.mem_append_left _ (hfrom _ x e1).1, by rw [e]; exact (hfrom _ x e1).2⟩
        · intro hx
          exact ⟨List.mem_append_left _ (hfrom b x hx).1, (hfrom b x hx).2⟩

theorem chaining_final_take (ks : List Int) (n : Int) (hn : n ≤ ks.length) :
    chaining_final ks n = chaining_feed (ks.take n.toNat) create_chaining_table ⟨0, 0, 0⟩ := by
  unfold chaining_final
  exact chaining_batch_eq_feed ks n.toNat _ _ (by omega)

theorem dedup_length_congr (l1 l2 : List Int) (h : ∀ x, x ∈ l1 ↔ x ∈ l2) :
    l1.dedup.length = l2.dedup.length := by
  rw [← List.card_toFinset, ← List.card_toFinset]
  congr 1
  ext x
  simp only [List.mem_toFinset]
  exact h x

/-- The statistics of `run_separate_chaining` on the first `n` keys, all
non-negative: `(d, d - b, 0)` with `d` the number of distinct keys and `b` the
number of distinct values of `hash1` among them. -/
theorem run_separate_chaining_formula (ks : List Int) (n : Int)
    (hnn : ∀ k ∈ ks.take n.toNat, 0 ≤ k) (hn : n ≤ ks.length) :
    run_separate_chaining ks n
      = some ⟨((ks.take n.toNat).dedup.length : Int),
          ((ks.take n.toNat).dedup.length : Int)
            - ((((ks.take n.toNat).map hash1).dedup.length : Nat) : Int), 0⟩ := by
  obtain ⟨ht, st, hf, _, hst, hcl, _, _⟩ := chaining_feed_count (ks.take n.toNat) hnn
  unfold run_separate_chaining
  rw [chaining_final_take ks n hn, hf]
  simp only
  rw [hst, hcl, List.card_toFinset, List.card_toFinset]

/-- C19: for every sequence of keys and every `n` not larger than its length, if
the first `n` keys are non-negative then `run_separate_chaining` returns exactly
`(d, d - b, 0)`, where `d` is the number of distinct values among the first `n`
keys and `b` the number of distinct values of `hash1` among them; hence two
batches with the same set of keys, in any order and with any repetitions, get
the same statistics. -/
theorem chaining_stats_formula (ks : List Int) (n : Int)
    (hnn : ∀ k ∈ ks.take n.toNat, 0 ≤ k) (hn : n ≤ ks.length) :
    run_separate_chaining ks n
        = some ⟨((ks.take n.toNat).dedup.length : Int),
            ((ks.take n.toNat).dedup.length : Int)
              - ((((ks.take n.toNat).map hash1).dedup.length : Nat) : Int), 0⟩
    ∧ ∀ (ks2 : List Int) (n2 : Int),
        (∀ k ∈ ks2.take n2.toNat, 0 ≤ k) → n2 ≤ ks2.length →
        (∀ x, x ∈ ks2.take n2.toNat ↔ x ∈ ks.take n.toNat) →
        run_separate_chaining ks2 n2 = run_separate_chaining ks n := by
  refine ⟨run_separate_chaining_formula ks n hnn hn, ?_⟩
  intro ks2 n2 hnn2 hn2 hsame
  rw [run_separate_chaining_formula ks n hnn hn, run_separate_chaining_formula ks2 n2 hnn2 hn2,
    dedup_length_congr _ _ hsame,
    dedup_length_congr ((ks2.take n2.toNat).map hash1) ((ks.take n.toNat).map hash1) (by
      intro y
      simp only [List.mem_map]
      constructor
      · rintro ⟨x, hx, e⟩; exact ⟨x, (hsame x).1 hx, e⟩
      · rintro ⟨x, hx, e⟩; exact ⟨x, (hsame x).2 hx, e⟩)]

/-- Witness of C19: the first 4 keys of `[5, 1014, 5, 7, 9]`, and the batch
`[7, 5, 1014]` with the same set of keys. -/
theorem chaining_stats_formula_witness :
    run_separate_chaining [5, 1014, 5, 7, 9] 4
        = some ⟨((([5, 1014, 5, 7, 9] : List Int).take (4 : Int).toNat).dedup.length : Int),
            ((([5, 1014, 5, 7, 9] : List Int).take (4 : Int).toNat).dedup.length : Int)
              - ((((([5, 1014, 5, 7, 9] : List Int).take (4 : Int).toNat).map
                    hash1).dedup.length : Nat) : Int), 0⟩
    ∧ run_separate_chaining [7, 5, 1014] 3 = run_separate_chaining [5, 1014, 5, 7, 9] 4 :=
  ⟨(chaining_stats_formula [5, 1014, 5, 7, 9] 4 (by decide) (by decide)).1,
    (chaining_stats_formula [5, 1014, 5, 7, 9] 4 (by decide) (by decide)).2 [7, 5, 1014] 3
      (by decide) (by decide) (by
        intro x
        have e1 : List.take (3 : Int).toNat ([7, 5, 1014] : List Int) = [7, 5, 1014] := rfl
        have e2 : List.take (4 : Int).toNat ([5, 1014, 5, 7, 9] : List Int)
            = [5, 1014, 5, 7] := rfl
        rw [e1, e2]
        simp only [List.mem_cons, List.mem_singleton, List.not_mem_nil, or_false]
        tauto)⟩

end HashTable
